import Mathlib

/-!
The script `convert_uml_to_svg.js`.

A shallow embedding of the script `convert_uml_to_svg.js`, which extracts the
fenced `mermaid` blocks of a Markdown document, names each one after the
nearest preceding `## ` heading and hands it to the external renderer `mmdc`.

JavaScript strings are sequences of UTF-16 code units; they are embedded as
lists of natural numbers.  Both regular expressions of the script are written
without the `u` flag, so they work on code units as well.
-/

namespace UmlToSvg

/-! ## Strings -/

/-- A JavaScript string, as its sequence of UTF-16 code units. -/
abbrev Str := List Nat

/-- The UTF-16 code units of a string literal. -/
def utf16 (s : String) : Str :=
  s.toList.flatMap fun c =>
    if c.toNat < 65536 then [c.toNat]
    else [55296 + (c.toNat - 65536) / 1024, 56320 + (c.toNat - 65536) % 1024]

/-- The code unit of the line feed. -/
def lineFeed : Nat := 10

/-- The code unit of the backtick. -/
def backtick : Nat := 96

/-- The literal text that opens the pattern of `mermaidRegex`. -/
def openMarker : Str := utf16 "```mermaid\n"

/-- The literal text that closes the pattern of `mermaidRegex`. -/
def closeMarker : Str := utf16 "```"

/-- The literal text that opens the heading pattern. -/
def headingPrefix : Str := utf16 "## "

/-- The value of `outputDir`. -/
def outputDir : Str := utf16 "uml-diagrams-svg"

/-- Decimal digits of `n`, most significant first; `fuel` bounds the number of digits. -/
def toDecimal : Nat → Nat → Str
  | 0, _ => []
  | fuel + 1, n => if n < 10 then [48 + n] else toDecimal fuel (n / 10) ++ [48 + n % 10]

/-- The text a template literal inserts for a non-negative integer
(`Number::toString`, decimal for every integer below `10 ^ 21`). -/
def numberToString (n : Nat) : Str := toDecimal (n + 1) n

/-! ## The regular expression `/```mermaid\n([\s\S]*?)```/g` -/

/-- The part `([\s\S]*?)` followed by the closing backticks, tried at the head of `s`:
the lazy quantifier first tries to go on with the closing backticks and takes one more
code unit (any code unit matches `[\s\S]`) only when that fails.  The result is the
text captured by the group. -/
def lazyCapture : Str → Option Str
  | [] => none
  | c :: t =>
    if closeMarker.isPrefixOf (c :: t) then some []
    else (lazyCapture t).map (c :: ·)

/-- The whole pattern tried at the head of `s`; the result is `match[1]`. -/
def mermaidAt (s : Str) : Option Str :=
  if openMarker.isPrefixOf s then lazyCapture (s.drop openMarker.length) else none

/-- What a successful `exec` gives: `match.index`, `match[1]` and the
`lastIndex` the regular expression is left with. -/
structure RegExpMatch where
  index : Nat
  capture : Str
  lastIndex : Nat
  deriving DecidableEq

/-- The pattern is tried at `pos`, `pos + 1`, ... where `s` is the text from `pos` on; at
the end of the text it cannot match, as it needs the code units of its markers. -/
def scanMermaid : Str → Nat → Option RegExpMatch
  | [], _ => none
  | c :: t, pos =>
    match mermaidAt (c :: t) with
    | some cap =>
      some ⟨pos, cap, pos + openMarker.length + cap.length + closeMarker.length⟩
    | none => scanMermaid t (pos + 1)

/-- The call `mermaidRegex.exec(text)` when the `lastIndex` of the regular expression
is `lastIndex`; `none` is `null`. -/
def mermaidExec (text : Str) (lastIndex : Nat) : Option RegExpMatch :=
  scanMermaid (text.drop lastIndex) lastIndex

/-! ## The title of a block -/

/-- The pattern `/## ([^\n]+)/` tried at the head of `s`; the result is the matched
text.  The greedy `[^\n]+` runs to the next line feed or to the end of the text. -/
def headingAt (s : Str) : Option Str :=
  if headingPrefix.isPrefixOf s then
    let body := (s.drop headingPrefix.length).takeWhile (· != lineFeed)
    if body.isEmpty then none else some (headingPrefix ++ body)
  else none

/-- The first match of the heading pattern in `s`: the matched text and the text
that follows it. -/
def scanHeading : Str → Option (Str × Str)
  | [] => none
  | c :: t =>
    match headingAt (c :: t) with
    | some m => some (m, (c :: t).drop m.length)
    | none => scanHeading t

/-- The successive matches of the heading pattern, each search starting where the
match before ended; `fuel` bounds their number (a match is never empty, so that the
length of the text and one more is enough, see `headingMatches_eq`). -/
def headingMatches : Nat → Str → List Str
  | 0, _ => []
  | fuel + 1, s =>
    match scanHeading s with
    | none => []
    | some (m, rest) => m :: headingMatches fuel rest

/-- The call `s.match(/## ([^\n]+)/g)`: the array of all matched texts, `null` when
there is none. -/
def stringMatch (s : Str) : Option (List Str) :=
  let all := headingMatches (s.length + 1) s
  if all.isEmpty then none else some all

/-- The call `s.replace(pat, rep)` for a string pattern: the first occurrence of `pat`
is replaced. -/
def replaceFirst (pat rep : Str) : Str → Str
  | [] => if pat.isEmpty then rep else []
  | c :: t =>
    if pat.isPrefixOf (c :: t) then rep ++ (c :: t).drop pat.length
    else c :: replaceFirst pat rep t

/-- The class `\w`. -/
def isWordChar (c : Nat) : Bool :=
  (48 ≤ c && c ≤ 57) || (65 ≤ c && c ≤ 90) || c == 95 || (97 ≤ c && c ≤ 122)

/-- The class `\s`: the white space and line terminator code points of ECMAScript. -/
def isWhiteSpace (c : Nat) : Bool :=
  (9 ≤ c && c ≤ 13) || c == 32 || c == 160 || c == 5760 || (8192 ≤ c && c ≤ 8202) ||
  c == 8232 || c == 8233 || c == 8239 || c == 8287 || c == 12288 || c == 65279

/-- The code unit of the hyphen. -/
def hyphen : Nat := 45

/-- The code unit of the underscore. -/
def underscore : Nat := 95

/-- The call `s.replace(/[^\w\s-]/g, '')`. -/
def removeOther (s : Str) : Str :=
  s.filter fun c => isWordChar c || isWhiteSpace c || c == hyphen

/-- The call `s.replace(/\s+/g, '_')`; `inRun` says that the code unit before was
white space, so that the run it belongs to has been replaced already. -/
def replaceRuns : Bool → Str → Str
  | _, [] => []
  | inRun, c :: t =>
    if isWhiteSpace c then
      if inRun then replaceRuns true t else underscore :: replaceRuns true t
    else c :: replaceRuns false t

/-- The call `s.toLowerCase()` on the letters `A` to `Z`.  Other code units are left as
they are: the script lower-cases a text made of word characters, hyphens and
underscores only (see `lowerCaseArgument_ascii`), on which the case mapping of
ECMAScript is this one. -/
def toLowerCase (s : Str) : Str :=
  s.map fun c => if 65 ≤ c ∧ c ≤ 90 then c + 32 else c

/-- The chain of calls applied to the chosen heading. -/
def deriveName (heading : Str) : Str :=
  toLowerCase (replaceRuns false (removeOther (replaceFirst headingPrefix [] heading)))

/-- The positional name `diagram_${blockIndex + 1}`. -/
def fallbackName (blockIndex : Nat) : Str :=
  utf16 "diagram_" ++ numberToString (blockIndex + 1)

/-- The constant `title` of the loop body. -/
def resolveTitle (umlContent : Str) (index blockIndex : Nat) : Str :=
  let beforeMatch := umlContent.take index
  match stringMatch beforeMatch with
  | some titleMatch =>
    if titleMatch.length > 0 then deriveName (titleMatch.getLastD [])
    else fallbackName blockIndex
  | none => fallbackName blockIndex

/-- The constant `tempFile` of the loop body. -/
def tempFileName (blockIndex : Nat) : Str :=
  utf16 "temp_diagram_" ++ numberToString blockIndex ++ utf16 ".mmd"

/-- The constant `outputFile` of the loop body: `path.join` puts one separator between
its two arguments (the title has no separator and no dot of its own, so that nothing
is left to normalise). -/
def outputFileName (title : Str) : Str :=
  outputDir ++ utf16 "/" ++ (title ++ utf16 ".svg")

/-- The command line given to `execSync`. -/
def command (tempFile outputFile : Str) : Str :=
  utf16 "mmdc -i " ++ tempFile ++ utf16 " -o " ++ outputFile ++ utf16 " -t default -b transparent"

/-! ## Files, the console and the external renderer -/

/-- Why a run of the script ends with an exception, or why the embedding gave up. -/
inductive Failure where
  | noSuchFile (path : Str)
  | fileExists (path : Str)
  | isDirectory (path : Str)
  | outOfFuel
  deriving DecidableEq

/-- What stands at a path: a file with its content, or a directory. -/
inductive Node where
  | file (content : Str)
  | directory
  deriving DecidableEq

/-- The file system the script works in: what stands at each path, `none` where there
is nothing. -/
structure FileSystem where
  node : Str → Option Node

/-- The content of the file at a path, `none` when no file stands there. -/
def FileSystem.files (fs : FileSystem) (path : Str) : Option Str :=
  match fs.node path with
  | some (.file content) => some content
  | _ => none

/-- Whether a directory stands at a path. -/
def FileSystem.dirs (fs : FileSystem) (path : Str) : Bool :=
  match fs.node path with
  | some .directory => true
  | _ => false

/-- The file system with the node at one path replaced. -/
def FileSystem.put (fs : FileSystem) (path : Str) (n : Option Node) : FileSystem :=
  ⟨fun q => if q = path then n else fs.node q⟩

/-- The call `fs.existsSync(path)`. -/
def existsSync (fs : FileSystem) (path : Str) : Bool :=
  (fs.node path).isSome

/-- The call `fs.mkdirSync(path)`, which throws when the path exists. -/
def mkdirSync (fs : FileSystem) (path : Str) : Except Failure FileSystem :=
  if existsSync fs path then .error (.fileExists path)
  else .ok (fs.put path (some .directory))

/-- The call `fs.readFileSync(path, 'utf8')`, which throws when there is no such file
and when the path is a directory. -/
def readFileSync (fs : FileSystem) (path : Str) : Except Failure Str :=
  match fs.node path with
  | some (.file text) => .ok text
  | some .directory => .error (.isDirectory path)
  | none => .error (.noSuchFile path)

/-- The call `fs.writeFileSync(path, data)`, which throws when the path is a directory
and else leaves a file with the content `data` at the path. -/
def writeFileSync (fs : FileSystem) (path data : Str) : Except Failure FileSystem :=
  match fs.node path with
  | some .directory => .error (.isDirectory path)
  | _ => .ok (fs.put path (some (.file data)))

/-- The call `fs.unlinkSync(path)`, which throws when there is no such file and when the
path is a directory. -/
def unlinkSync (fs : FileSystem) (path : Str) : Except Failure FileSystem :=
  match fs.node path with
  | some (.file _) => .ok (fs.put path none)
  | some .directory => .error (.isDirectory path)
  | none => .error (.noSuchFile path)

/-- The external program `mmdc` as the script sees it: from the number of invocations
made before, the command line and the content of the file the command line names after
`-i` (`none` when there is no such file), it either fails with a message or succeeds
with the image it writes to the path the command line names after `-o`. -/
abbrev Renderer := Nat → Str → Option Str → Except Str Str

/-- Whether an invocation of the renderer succeeds. -/
def succeeds (render : Renderer) (invocation : Nat) (cmd : Str) (input : Option Str) : Bool :=
  match render invocation cmd input with
  | .ok _ => true
  | .error _ => false

/-- The call `execSync(command)` for the command line built from `tempFile` and
`outputFile`: the renderer reads the file at `tempFile`; when it succeeds, the file at
`outputFile` holds the image; a failure is the exception the `try` block catches. -/
def execSync (render : Renderer) (invocation : Nat) (cmd tempFile outputFile : Str)
    (fs : FileSystem) : Except Str FileSystem :=
  match render invocation cmd (fs.files tempFile) with
  | .ok image => .ok (fs.put outputFile (some (.file image)))
  | .error message => .error message

/-- What one pass through the loop body did; kept for observation only. -/
structure Attempt where
  /-- The value of `match.index`. -/
  startOffset : Nat
  /-- The value of `mermaidCode`. -/
  content : Str
  /-- The value of `blockIndex` during the pass. -/
  sequenceIndex : Nat
  /-- The value of `title`. -/
  title : Str
  /-- The value of `outputFile`. -/
  outputFile : Str
  /-- The content of `tempFile` when the renderer was started. -/
  staged : Option Str
  /-- Whether `execSync` returned without an exception. -/
  succeeded : Bool
  deriving DecidableEq

/-- The variables of the script that change during the run, the file system, the
lines written to the console and the record of the passes made. -/
structure RunState where
  fs : FileSystem
  diagramCount : Nat
  blockIndex : Nat
  console : List Str
  attempts : List Attempt

/-- The line of `console.log` after a successful conversion. -/
def generatedLine (outputFile : Str) : Str :=
  utf16 "Generated: " ++ outputFile

/-- The line of `console.error` after a failed conversion. -/
def failedLine (outputFile message : Str) : Str :=
  utf16 "Failed to generate " ++ outputFile ++ utf16 ": " ++ message

/-- The last line the script prints. -/
def summaryLine (diagramCount : Nat) : Str :=
  utf16 "\nConversion complete! Generated " ++ numberToString diagramCount ++
    utf16 " SVG files in the '" ++ outputDir ++ utf16 "' directory."

/-- The body of the `while` loop for the match `m`.  The calls of `writeFileSync` and
of `unlinkSync` stand outside the `try` block: an exception of theirs ends the run. -/
def processBlock (render : Renderer) (umlContent : Str) (m : RegExpMatch)
    (st : RunState) : Except Failure RunState :=
  let mermaidCode := m.capture
  let title := resolveTitle umlContent m.index st.blockIndex
  let tempFile := tempFileName st.blockIndex
  match writeFileSync st.fs tempFile mermaidCode with
  | .error e => .error e
  | .ok staged =>
    let outputFile := outputFileName title
    let attempt : Bool → Attempt := fun ok =>
      ⟨m.index, mermaidCode, st.blockIndex, title, outputFile, staged.files tempFile, ok⟩
    let tried : RunState :=
      match execSync render st.attempts.length (command tempFile outputFile) tempFile
          outputFile staged with
      | .ok rendered =>
        { st with
          fs := rendered
          console := st.console ++ [generatedLine outputFile]
          diagramCount := st.diagramCount + 1
          attempts := st.attempts ++ [attempt true] }
      | .error message =>
        { st with
          fs := staged
          console := st.console ++ [failedLine outputFile message]
          attempts := st.attempts ++ [attempt false] }
    match unlinkSync tried.fs tempFile with
    | .ok cleaned => .ok { tried with fs := cleaned, blockIndex := tried.blockIndex + 1 }
    | .error e => .error e

/-- The loop `while ((match = mermaidRegex.exec(umlContent)) !== null) body`, started
with the given `lastIndex`; `fuel` bounds the number of calls of `exec`. -/
def whileExec {σ : Type} (umlContent : Str) (body : RegExpMatch → σ → Except Failure σ) :
    Nat → Nat → σ → Except Failure σ
  | 0, _, _ => .error .outOfFuel
  | fuel + 1, lastIndex, st =>
    match mermaidExec umlContent lastIndex with
    | none => .ok st
    | some m =>
      match body m st with
      | .ok next => whileExec umlContent body fuel m.lastIndex next
      | .error e => .error e

/-- The script from the creation of the output directory on, for the document text
`umlContent`. -/
def run (render : Renderer) (umlContent : Str) (fs : FileSystem) : Except Failure RunState :=
  let made : Except Failure FileSystem :=
    if !existsSync fs outputDir then mkdirSync fs outputDir else .ok fs
  match made with
  | .error e => .error e
  | .ok fs0 =>
    match whileExec umlContent (processBlock render umlContent) (umlContent.length + 1) 0
        ⟨fs0, 0, 0, [], []⟩ with
    | .ok st => .ok { st with console := st.console ++ [summaryLine st.diagramCount] }
    | .error e => .error e

/-- The path of the document the script reads. -/
def documentPath : Str := utf16 "docs/UML.md"

/-- The whole script. -/
def main (render : Renderer) (fs : FileSystem) : Except Failure RunState :=
  match readFileSync fs documentPath with
  | .ok umlContent => run render umlContent fs
  | .error e => .error e

/-- A file system with no file and no directory. -/
def emptyFileSystem : FileSystem := ⟨fun _ => none⟩

/-- The record of the passes of a finished run, `none` when the run threw. -/
def attemptsOf (r : Except Failure RunState) : Option (List Attempt) :=
  r.toOption.map (·.attempts)

/-! ## Auxiliary notions for the proofs -/

/-- The matches `exec` returns one after the other, from `lastIndex` on, until it
returns `null`. -/
inductive Matches (text : Str) : Nat → List RegExpMatch → Prop
  | done {lastIndex : Nat} : mermaidExec text lastIndex = none → Matches text lastIndex []
  | step {lastIndex : Nat} {m : RegExpMatch} {ms : List RegExpMatch} :
    mermaidExec text lastIndex = some m → Matches text m.lastIndex ms →
    Matches text lastIndex (m :: ms)

/-- The record the pass for the match `m` leaves when it is the pass number
`blockIndex` (counted from `0`). -/
def attemptFor (render : Renderer) (text : Str) (blockIndex : Nat) (m : RegExpMatch) : Attempt :=
  let title := resolveTitle text m.index blockIndex
  ⟨m.index, m.capture, blockIndex, title, outputFileName title, some m.capture,
    succeeds render blockIndex (command (tempFileName blockIndex) (outputFileName title))
      (some m.capture)⟩

/-- The line the pass for the match `m` writes to the console when it is the pass number
`blockIndex` (counted from `0`). -/
def consoleLineFor (render : Renderer) (text : Str) (blockIndex : Nat) (m : RegExpMatch) :
    Str :=
  let outputFile := outputFileName (resolveTitle text m.index blockIndex)
  match render blockIndex (command (tempFileName blockIndex) outputFile) (some m.capture) with
  | .ok _ => generatedLine outputFile
  | .error message => failedLine outputFile message

/-- No directory stands where the script puts a staging file. -/
def NoStagingDirectory (fs : FileSystem) : Prop :=
  ∀ i, fs.dirs (tempFileName i) = false

/-- The document of the second example scenario of the specification. -/
def loginFlowDocument : Str := utf16 "## Login Flow\n```mermaid\nA-->B\n```\n"

/-! ## Documents laid out as fenced blocks -/

/-- The text of a document given as its fenced blocks, each one with the free text that
stands before it and with its content, and the free text after the last block. -/
def layoutText : List (Str × Str) → Str → Str
  | [], tail => tail
  | (gap, content) :: rest, tail =>
    gap ++ (openMarker ++ (content ++ (closeMarker ++ layoutText rest tail)))

/-- The offsets at which the blocks of such a document start, when the document itself
starts at offset `base`. -/
def layoutOffsets : Nat → List (Str × Str) → List Nat
  | _, [] => []
  | base, (gap, content) :: rest =>
    (base + gap.length) ::
      layoutOffsets (base + gap.length + openMarker.length + content.length + closeMarker.length)
        rest

/-- The blocks are well formed and there are no others: the free text has no open
marker, and the close marker of a block is the first run of three backticks after its
open marker (the content has no such run, not even together with the first two
backticks of the close marker). -/
def WellFormed (blocks : List (Str × Str)) (tail : Str) : Prop :=
  (∀ b ∈ blocks, ¬ openMarker <:+: b.1 ∧ ¬ closeMarker <:+: b.2 ++ [backtick, backtick]) ∧
    ¬ openMarker <:+: tail

instance (blocks : List (Str × Str)) (tail : Str) : Decidable (WellFormed blocks tail) := by
  unfold WellFormed
  infer_instance

/-! ## Concrete inputs -/

/-- A renderer that succeeds at every invocation, with an empty image. -/
def alwaysSucceeds : Renderer := fun _ _ _ => .ok []

/-- A renderer that fails at every invocation, with an empty message. -/
def alwaysFails : Renderer := fun _ _ _ => .error []

/-- A renderer that fails at its first invocation and succeeds at all later ones. -/
def failsFirst : Renderer := fun n _ _ => if n = 0 then .error (utf16 "boom") else .ok []

/-- A renderer that answers with the content of the file it is given as its image, and
fails when there is no such file. -/
def echo : Renderer := fun _ _ input =>
  match input with
  | some content => .ok content
  | none => .error []

/-- A file system in which a directory stands at the path of the first staging file. -/
def blockedFileSystem : FileSystem :=
  emptyFileSystem.put (utf16 "temp_diagram_0.mmd") (some .directory)

/-- Two blocks under two headings. -/
def twoDiagrams : Str := utf16 "## One\n```mermaid\nA\n```\n## Two\n```mermaid\nB\n```\n"

/-- A block under a heading with upper-case letters, a tab, a carriage return,
punctuation and a letter outside ASCII, and a second block. -/
def mixedHeadingDocument : Str :=
  utf16 "## Café\tDÉJÀ: v1.0/a\\b\r\n```mermaid\nA\n```\n```mermaid\nB\n```\n"

/-- Two fenced blocks with free text around them. -/
def twoBlocks : List (Str × Str) :=
  [(utf16 "# Notes\n", utf16 "graph TD\nA-->B\n"), (utf16 "\nsome `code` here\n", utf16 "C-->D\n")]

/-- The free text after the two blocks. -/
def twoBlocksTail : Str := utf16 "\nThe end.\n"

/-- An open marker that is not closed before the open marker of a later block. -/
def unclosedDocument : Str := utf16 "```mermaid\nA\n```mermaid\nB\n```\n"

/-- An open marker after which no backticks follow. -/
def openEndedDocument : Str := utf16 "```mermaid\nA\n```\ntext\n```mermaid\nB\n"

/-! ## Names -/

/-- The code units allowed in a name: `a` to `z`, `0` to `9`, underscore and hyphen. -/
def isNameChar (c : Nat) : Bool :=
  (97 ≤ c && c ≤ 122) || (48 ≤ c && c ≤ 57) || c == underscore || c == hyphen

/-- The number a text of decimal digits stands for. -/
def decimalValue (digits : Str) : Nat :=
  digits.foldl (fun acc d => 10 * acc + (d - 48)) 0

/-! ## Headings -/

/-- The lines of a text: the parts that the line feeds separate. -/
def splitLines : Str → List Str
  | [] => [[]]
  | c :: t =>
    if c = lineFeed then [] :: splitLines t
    else
      match splitLines t with
      | [] => [[c]]
      | l :: ls => (c :: l) :: ls

/-- A second-level heading line: a line that consists of the heading prefix followed by
text. -/
def isHeadingLine (l : Str) : Bool :=
  headingPrefix.isPrefixOf l && decide (headingPrefix.length < l.length)

/-- The second-level heading lines of a text, in their order. -/
def headingLines (s : Str) : List Str :=
  (splitLines s).filter isHeadingLine

/-- The heading text a line holds for the script: the line from its first heading prefix
that at least one more code unit follows, if there is one. -/
def lineHeading : Str → Option Str
  | [] => none
  | c :: t =>
    if headingPrefix.isPrefixOf (c :: t) && decide (headingPrefix.length < (c :: t).length)
    then some (c :: t)
    else lineHeading t

/-- The heading texts of the lines of a text, in their order. -/
def headingTexts (s : Str) : List Str :=
  (splitLines s).filterMap lineHeading

/-- A third-level heading between a second-level heading and a block. -/
def subheadingDocument : Str := utf16 "## Top\n### Sub\n```mermaid\nA\n```\n"

/-- A block with a third-level heading before it and no second-level heading. -/
def thirdLevelDocument : Str := utf16 "### Notes\n```mermaid\nA\n```\n"

/-- A block after a line of plain text in which the heading prefix occurs. -/
def inlinePrefixDocument : Str := utf16 "rated ## !!!\n```mermaid\nA\n```\n"

/-! ## The closing backticks -/

theorem lazyCapture_none {s : Str} (h : ∀ j, ¬ closeMarker <+: s.drop j) :
    lazyCapture s = none := by
  induction s with
  | nil => rfl
  | cons c t ih =>
    have h0 : ¬ closeMarker <+: (c :: t) := by simpa using h 0
    have ht : lazyCapture t = none := ih fun j => by simpa using h (j + 1)
    simp [lazyCapture, List.isPrefixOf_iff_prefix, h0, ht]

theorem lazyCapture_first {s c : Str} (h : lazyCapture s = some c) :
    s = c ++ closeMarker ++ s.drop (c.length + closeMarker.length) ∧
      ∀ j, j < c.length → ¬ closeMarker <+: s.drop j := by
  induction s generalizing c with
  | nil => simp [lazyCapture] at h
  | cons a t ih =>
    by_cases hp : closeMarker <+: (a :: t)
    · have hc : c = [] := by
        simpa [lazyCapture, List.isPrefixOf_iff_prefix, hp] using h.symm
      subst hc
      refine ⟨?_, by simp⟩
      obtain ⟨r, hr⟩ := hp
      rw [← hr]
      simp
    · simp only [lazyCapture, List.isPrefixOf_iff_prefix, hp, if_false, Option.map_eq_some'] at h
      obtain ⟨c', hc', rfl⟩ := h
      obtain ⟨h1, h2⟩ := ih hc'
      refine ⟨?_, ?_⟩
      · simp only [List.length_cons, List.cons_append, List.cons.injEq, true_and]
        rw [show c'.length + 1 + closeMarker.length = (c'.length + closeMarker.length) + 1 by omega,
          List.drop_succ_cons]
        simpa using h1
      · intro j hj
        cases j with
        | zero => simpa using hp
        | succ j =>
          simp only [List.drop_succ_cons]
          exact h2 j (by simpa using hj)

theorem lazyCapture_of_first {c rest : Str}
    (h : ∀ j, j < c.length → ¬ closeMarker <+: (c ++ (closeMarker ++ rest)).drop j) :
    lazyCapture (c ++ (closeMarker ++ rest)) = some c := by
  induction c with
  | nil =>
    simp [lazyCapture, closeMarker, utf16]
  | cons a c ih =>
    have h0 : ¬ closeMarker <+: (a :: (c ++ (closeMarker ++ rest))) := by
      simpa using h 0 (by simp)
    have ht : lazyCapture (c ++ (closeMarker ++ rest)) = some c :=
      ih fun j hj => by simpa using h (j + 1) (by simpa using hj)
    simp [lazyCapture, List.isPrefixOf_iff_prefix, h0, ht]

/-! ## The first match from a position on -/

theorem mermaidAt_nil : mermaidAt [] = none := by
  simp [mermaidAt, openMarker, utf16]

theorem mermaidAt_some {s c : Str} (h : mermaidAt s = some c) :
    s = openMarker ++ (c ++ (closeMarker ++
        s.drop (openMarker.length + c.length + closeMarker.length))) ∧
      ∀ j, j < c.length → ¬ closeMarker <+: s.drop (openMarker.length + j) := by
  unfold mermaidAt at h
  split at h
  · rename_i hp
    obtain ⟨r, hr⟩ := List.isPrefixOf_iff_prefix.mp hp
    subst hr
    rw [List.drop_left] at h
    obtain ⟨h1, h2⟩ := lazyCapture_first h
    refine ⟨?_, ?_⟩
    · rw [show openMarker.length + c.length + closeMarker.length
          = openMarker.length + (c.length + closeMarker.length) by omega,
        ← List.drop_drop, List.drop_left]
      simpa using h1
    · intro j hj
      rw [← List.drop_drop, List.drop_left]
      exact h2 j hj
  · simp at h

theorem mermaidAt_of_first {c rest : Str}
    (h : ∀ j, j < c.length → ¬ closeMarker <+: (c ++ (closeMarker ++ rest)).drop j) :
    mermaidAt (openMarker ++ (c ++ (closeMarker ++ rest))) = some c := by
  unfold mermaidAt
  rw [if_pos (List.isPrefixOf_iff_prefix.mpr (List.prefix_append _ _)), List.drop_left]
  exact lazyCapture_of_first h

theorem mermaidAt_none_of_no_open {s : Str} (h : ¬ openMarker <+: s) :
    mermaidAt s = none := by
  simp [mermaidAt, List.isPrefixOf_iff_prefix, h]

theorem scanMermaid_some {s : Str} {pos : Nat} {m : RegExpMatch}
    (h : scanMermaid s pos = some m) :
    ∃ k, m.index = pos + k ∧ mermaidAt (s.drop k) = some m.capture ∧
      (∀ j, j < k → mermaidAt (s.drop j) = none) ∧
      m.lastIndex = m.index + openMarker.length + m.capture.length + closeMarker.length := by
  induction s generalizing pos with
  | nil => simp [scanMermaid] at h
  | cons a t ih =>
    unfold scanMermaid at h
    split at h
    · rename_i cap hcap
      simp only [Option.some.injEq] at h
      subst h
      exact ⟨0, rfl, by simpa using hcap, by simp, rfl⟩
    · rename_i hnone
      obtain ⟨k, hk1, hk2, hk3, hk4⟩ := ih h
      refine ⟨k + 1, by omega, by simpa using hk2, ?_, hk4⟩
      intro j hj
      cases j with
      | zero => simpa using hnone
      | succ j => simpa using hk3 j (by omega)

theorem scanMermaid_none {s : Str} {pos : Nat} (h : scanMermaid s pos = none) :
    ∀ j, mermaidAt (s.drop j) = none := by
  induction s generalizing pos with
  | nil => intro j; simpa using mermaidAt_nil
  | cons a t ih =>
    unfold scanMermaid at h
    split at h
    · simp at h
    · rename_i hnone
      intro j
      cases j with
      | zero => simpa using hnone
      | succ j => simpa using ih h j

theorem scanMermaid_of_first {s : Str} {pos k : Nat} {c : Str}
    (hk : mermaidAt (s.drop k) = some c) (hlt : ∀ j, j < k → mermaidAt (s.drop j) = none) :
    scanMermaid s pos =
      some ⟨pos + k, c, pos + k + openMarker.length + c.length + closeMarker.length⟩ := by
  induction k generalizing s pos with
  | zero =>
    cases s with
    | nil => simp [mermaidAt_nil] at hk
    | cons a t =>
      simp only [List.drop_zero] at hk
      simp [scanMermaid, hk]
  | succ k ih =>
    cases s with
    | nil => simp [mermaidAt_nil] at hk
    | cons a t =>
      have h0 : mermaidAt (a :: t) = none := by simpa using hlt 0 (by omega)
      have := @ih t (pos + 1) (by simpa using hk)
        (fun j hj => by simpa using hlt (j + 1) (by omega))
      have e : pos + 1 + k = pos + (k + 1) := by omega
      simp only [scanMermaid, h0]
      rw [this, e]

theorem scanMermaid_of_none {s : Str} {pos : Nat} (h : ∀ j, mermaidAt (s.drop j) = none) :
    scanMermaid s pos = none := by
  induction s generalizing pos with
  | nil => rfl
  | cons a t ih =>
    have h0 : mermaidAt (a :: t) = none := by simpa using h 0
    simp only [scanMermaid, h0]
    exact ih fun j => by simpa using h (j + 1)

/-! ## One call of `exec` -/

theorem mermaidExec_some {text : Str} {lastIndex : Nat} {m : RegExpMatch}
    (h : mermaidExec text lastIndex = some m) :
    lastIndex ≤ m.index ∧
      text.drop m.index = openMarker ++ (m.capture ++ (closeMarker ++ text.drop m.lastIndex)) ∧
      m.lastIndex = m.index + openMarker.length + m.capture.length + closeMarker.length ∧
      (∀ j, j < m.capture.length →
        ¬ closeMarker <+: text.drop (m.index + openMarker.length + j)) ∧
      (∀ j, lastIndex ≤ j → j < m.index → mermaidAt (text.drop j) = none) := by
  obtain ⟨k, hk1, hk2, hk3, hk4⟩ := scanMermaid_some h
  have hd : text.drop m.index = (text.drop lastIndex).drop k := by
    rw [List.drop_drop, hk1, Nat.add_comm]
  obtain ⟨e1, e2⟩ := mermaidAt_some hk2
  refine ⟨by omega, ?_, hk4, ?_, ?_⟩
  · rw [hd]
    conv_lhs => rw [e1]
    rw [List.drop_drop, List.drop_drop, hk4, hk1]
    congr 4
    omega
  · intro j hj
    have := e2 j hj
    rw [List.drop_drop, List.drop_drop] at this
    rw [hk1]
    convert this using 2
    congr 1
    omega
  · intro j h1 h2
    have := hk3 (j - lastIndex) (by omega)
    rw [List.drop_drop] at this
    convert this using 2
    congr 1
    omega

theorem mermaidExec_lastIndex_le {text : Str} {lastIndex : Nat} {m : RegExpMatch}
    (h : mermaidExec text lastIndex = some m) : m.lastIndex ≤ text.length := by
  obtain ⟨-, h2, h3, -, -⟩ := mermaidExec_some h
  have := congrArg List.length h2
  have ho : openMarker.length = 11 := by decide
  simp only [List.length_drop, List.length_append] at this
  omega

theorem mermaidExec_lt_lastIndex {text : Str} {lastIndex : Nat} {m : RegExpMatch}
    (h : mermaidExec text lastIndex = some m) : lastIndex < m.lastIndex := by
  obtain ⟨h1, -, h3, -, -⟩ := mermaidExec_some h
  have : openMarker.length = 11 := by decide
  omega

/-! ## The sequence of matches -/

theorem matches_exists (text : Str) (lastIndex : Nat) : ∃ ms, Matches text lastIndex ms := by
  generalize hn : text.length - lastIndex = n
  induction n using Nat.strong_induction_on generalizing lastIndex with
  | _ n ih =>
    subst hn
    cases hm : mermaidExec text lastIndex with
    | none => exact ⟨[], .done hm⟩
    | some m =>
      have h1 := mermaidExec_lastIndex_le hm
      have h2 := mermaidExec_lt_lastIndex hm
      obtain ⟨ms, hms⟩ := ih (text.length - m.lastIndex) (by omega) m.lastIndex rfl
      exact ⟨m :: ms, .step hm hms⟩

theorem matches_unique {text : Str} {lastIndex : Nat} {ms ms' : List RegExpMatch}
    (h : Matches text lastIndex ms) (h' : Matches text lastIndex ms') : ms = ms' := by
  induction h generalizing ms' with
  | done hn =>
    cases h' with
    | done _ => rfl
    | step hs _ => simp [hn] at hs
  | step hs _ ih =>
    cases h' with
    | done hn => simp [hn] at hs
    | step hs' hr =>
      rw [hs] at hs'
      cases hs'
      rw [ih hr]

theorem matches_length {text : Str} {lastIndex : Nat} {ms : List RegExpMatch}
    (h : Matches text lastIndex ms) : ms.length + lastIndex ≤ max text.length lastIndex := by
  induction h with
  | done _ => simp
  | step hs _ ih =>
    have h1 := mermaidExec_lastIndex_le hs
    have h2 := mermaidExec_lt_lastIndex hs
    simp only [List.length_cons]
    omega

theorem matches_length_lt {text : Str} {ms : List RegExpMatch} (h : Matches text 0 ms) :
    ms.length < text.length + 1 := by
  have := matches_length h
  simp at this
  omega
/-! ## One pass through the loop body -/

theorem tempFileName_ne_outputFileName (i : Nat) (title : Str) :
    tempFileName i ≠ outputFileName title := by
  intro h
  have h1 : (tempFileName i).head? = some 116 := rfl
  have h2 : (outputFileName title).head? = some 117 := rfl
  rw [h, h2] at h1
  exact absurd h1 (by decide)

theorem tempFileName_ne_outputDir (i : Nat) : tempFileName i ≠ outputDir := by
  intro h
  have h1 : (tempFileName i).head? = some 116 := rfl
  have h2 : outputDir.head? = some 117 := rfl
  rw [h, h2] at h1
  exact absurd h1 (by decide)

theorem dirs_eq_false_of_node {fs : FileSystem} {p : Str} (h : fs.node p = none) :
    fs.dirs p = false := by
  simp [FileSystem.dirs, h]

theorem files_eq_none_of_node {fs : FileSystem} {p : Str} (h : fs.node p = none) :
    fs.files p = none := by
  simp [FileSystem.files, h]

theorem writeFileSync_ok {fs : FileSystem} {p : Str} (h : fs.dirs p = false) (data : Str) :
    writeFileSync fs p data = .ok (fs.put p (some (.file data))) := by
  unfold writeFileSync
  unfold FileSystem.dirs at h
  split
  · rename_i hn
    simp [hn] at h
  · rfl

theorem writeFileSync_directory {fs : FileSystem} {p : Str} (h : fs.dirs p = true)
    (data : Str) : writeFileSync fs p data = .error (.isDirectory p) := by
  unfold writeFileSync
  unfold FileSystem.dirs at h
  split at h
  · rename_i hn
    simp [hn]
  · simp at h

theorem processBlock_spec (render : Renderer) (text : Str) (m : RegExpMatch) (st : RunState)
    (hk : st.blockIndex = st.attempts.length)
    (hdir : st.fs.dirs (tempFileName st.blockIndex) = false) :
    ∃ st', processBlock render text m st = .ok st' ∧
      st'.blockIndex = st.blockIndex + 1 ∧
      st'.attempts = st.attempts ++ [attemptFor render text st.blockIndex m] ∧
      st'.diagramCount = st.diagramCount +
        (if (attemptFor render text st.blockIndex m).succeeded then 1 else 0) ∧
      st'.console = st.console ++ [consoleLineFor render text st.blockIndex m] ∧
      st'.fs.node (tempFileName st.blockIndex) = none ∧
      (∀ p, p ≠ tempFileName st.blockIndex →
        p ≠ outputFileName (resolveTitle text m.index st.blockIndex) →
        st'.fs.node p = st.fs.node p) ∧
      st'.fs.node (outputFileName (resolveTitle text m.index st.blockIndex)) =
        (match render st.blockIndex
            (command (tempFileName st.blockIndex)
              (outputFileName (resolveTitle text m.index st.blockIndex))) (some m.capture) with
        | .ok image => some (.file image)
        | .error _ => st.fs.node (outputFileName (resolveTitle text m.index st.blockIndex))) := by
  obtain ⟨fs, count, k, console, attempts⟩ := st
  simp only at hk hdir
  subst hk
  have hne := tempFileName_ne_outputFileName attempts.length
    (resolveTitle text m.index attempts.length)
  have hw := writeFileSync_ok hdir m.capture
  cases hr : render attempts.length
      (command (tempFileName attempts.length)
        (outputFileName (resolveTitle text m.index attempts.length))) (some m.capture) with
  | ok image =>
    simp [processBlock, hw, execSync, unlinkSync, FileSystem.put, FileSystem.files, hr, hne,
      hne.symm, attemptFor, succeeds, consoleLineFor]
    intro p h1 h2
    simp [h1, h2]
  | error message =>
    simp [processBlock, hw, execSync, unlinkSync, FileSystem.put, FileSystem.files, hr, hne,
      hne.symm, attemptFor, succeeds, consoleLineFor]
    intro p h1 h2
    simp [h1, h2]

theorem processBlock_directory (render : Renderer) (text : Str) (m : RegExpMatch)
    (st : RunState) (hdir : st.fs.dirs (tempFileName st.blockIndex) = true) :
    processBlock render text m st = .error (.isDirectory (tempFileName st.blockIndex)) := by
  simp [processBlock, writeFileSync_directory hdir]
/-! ## The whole loop -/

theorem whileExec_spec (render : Renderer) (text : Str) {lastIndex : Nat}
    {ms : List RegExpMatch} (h : Matches text lastIndex ms) :
    ∀ (fuel : Nat) (st : RunState), ms.length < fuel → st.blockIndex = st.attempts.length →
      NoStagingDirectory st.fs →
      ∃ st', whileExec text (processBlock render text) fuel lastIndex st = .ok st' ∧
        st'.blockIndex = st.blockIndex + ms.length ∧
        st'.attempts = st.attempts ++
          (ms.enumFrom st.blockIndex).map (fun p => attemptFor render text p.1 p.2) ∧
        st'.diagramCount = st.diagramCount +
          (((ms.enumFrom st.blockIndex).map (fun p => attemptFor render text p.1 p.2)).filter
            (·.succeeded)).length ∧
        st'.console = st.console ++
          (ms.enumFrom st.blockIndex).map (fun p => consoleLineFor render text p.1 p.2) ∧
        ((∀ i, i < st.blockIndex → st.fs.node (tempFileName i) = none) →
          ∀ i, i < st'.blockIndex → st'.fs.node (tempFileName i) = none) ∧
        (∀ p, (∀ i, p ≠ tempFileName i) → (∀ title, p ≠ outputFileName title) →
          st'.fs.node p = st.fs.node p) := by
  induction h with
  | done hn =>
    intro fuel st hf _ _
    cases fuel with
    | zero => omega
    | succ fuel =>
      refine ⟨st, by simp [whileExec, hn], by simp, by simp, by simp, by simp, ?_, ?_⟩
      · intro hi i hlt
        exact hi i hlt
      · intro p _ _
        rfl
  | @step li m ms hs _ ih =>
    intro fuel st hf hk hfs
    cases fuel with
    | zero => omega
    | succ fuel =>
      obtain ⟨st1, e1, b1, a1, c1, l1, t1, f1, -⟩ :=
        processBlock_spec render text m st hk (hfs st.blockIndex)
      have hk1 : st1.blockIndex = st1.attempts.length := by
        rw [b1, a1, hk]
        simp
      have hfs1 : NoStagingDirectory st1.fs := by
        intro i
        by_cases hti : tempFileName i = tempFileName st.blockIndex
        · rw [hti]
          exact dirs_eq_false_of_node t1
        · have := hfs i
          unfold FileSystem.dirs at this ⊢
          rw [f1 _ hti (tempFileName_ne_outputFileName i _)]
          exact this
      obtain ⟨st2, e2, b2, a2, c2, l2, t2, f2⟩ :=
        ih fuel st1 (by simp only [List.length_cons] at hf; omega) hk1 hfs1
      refine ⟨st2, by simp [whileExec, hs, e1, e2], ?_, ?_, ?_, ?_, ?_, ?_⟩
      · rw [b2, b1]
        simp only [List.length_cons]
        omega
      · rw [a2, a1, b1]
        simp [List.enumFrom]
      · rw [c2, c1, b1]
        simp only [List.enumFrom, List.map_cons, List.filter_cons]
        cases hsucc : (attemptFor render text st.blockIndex m).succeeded <;>
          simp only [hsucc, if_true, if_false, Bool.false_eq_true, List.length_cons] <;> omega
      · rw [l2, l1, b1]
        simp [List.enumFrom]
      · intro hi
        apply t2
        intro i hlt
        by_cases hti : tempFileName i = tempFileName st.blockIndex
        · rw [hti]
          exact t1
        · rw [f1 _ hti (tempFileName_ne_outputFileName i _)]
          apply hi
          have : i ≠ st.blockIndex := fun e => hti (by rw [e])
          omega
      · intro p hp1 hp2
        rw [f2 p hp1 hp2, f1 p (hp1 _) (hp2 _)]

/-! ## The whole run -/

theorem run_spec (render : Renderer) (text : Str) (fs : FileSystem)
    (hfs : NoStagingDirectory fs) :
    ∃ final ms, Matches text 0 ms ∧ run render text fs = .ok final ∧
      final.attempts = (ms.enumFrom 0).map (fun p => attemptFor render text p.1 p.2) ∧
      final.diagramCount = (final.attempts.filter (·.succeeded)).length ∧
      final.console = (ms.enumFrom 0).map (fun p => consoleLineFor render text p.1 p.2) ++
        [summaryLine final.diagramCount] ∧
      (∀ i, i < ms.length → final.fs.node (tempFileName i) = none) ∧
      (∀ p, (∀ i, p ≠ tempFileName i) → (∀ title, p ≠ outputFileName title) →
        p ≠ outputDir → final.fs.node p = fs.node p) := by
  obtain ⟨ms, hms⟩ := matches_exists text 0
  have hmade : ∃ fs0, (if !existsSync fs outputDir then mkdirSync fs outputDir else .ok fs)
      = .ok fs0 ∧ (∀ p, p ≠ outputDir → fs0.node p = fs.node p) := by
    cases he : existsSync fs outputDir with
    | true => exact ⟨fs, by simp, fun _ _ => rfl⟩
    | false =>
      refine ⟨fs.put outputDir (some .directory), by simp [mkdirSync, he], ?_⟩
      intro p hp
      simp [FileSystem.put, hp]
  obtain ⟨fs0, hfs0, hnode⟩ := hmade
  have hfs' : NoStagingDirectory fs0 := by
    intro i
    have := hfs i
    unfold FileSystem.dirs at this ⊢
    rw [hnode _ (tempFileName_ne_outputDir i)]
    exact this
  obtain ⟨st, e, b, a, c, l, t, f⟩ :=
    whileExec_spec render text hms (text.length + 1) ⟨fs0, 0, 0, [], []⟩
      (matches_length_lt hms) rfl hfs'
  simp only [List.nil_append, Nat.zero_add] at b a c l
  refine ⟨{ st with console := st.console ++ [summaryLine st.diagramCount] }, ms, hms, ?_,
    a, ?_, ?_, ?_, ?_⟩
  · simp only [run, hfs0, e]
  · simp only [c, a]
  · simp only [l]
  · intro i hi
    exact t (fun j hj => absurd hj (Nat.not_lt_zero j)) i (by omega)
  · intro p h1 h2 h3
    simp only [f p h1 h2, hnode p h3]

/-- The record of a run lists the matches in their order. -/
theorem matches_mem_of_attempt {render : Renderer} {text : Str} {ms : List RegExpMatch}
    {a : Attempt}
    (h : a ∈ (ms.enumFrom 0).map (fun p => attemptFor render text p.1 p.2)) :
    ∃ i m, ms[i]? = some m ∧ a = attemptFor render text i m := by
  simp only [List.mem_map, Prod.exists] at h
  obtain ⟨i, m, hmem, rfl⟩ := h
  refine ⟨i, m, ?_, rfl⟩
  have := List.mk_mem_enumFrom_iff_le_and_getElem?_sub.mp hmem
  simpa using this.2

theorem matches_index_ge {text : Str} {lastIndex : Nat} {ms : List RegExpMatch}
    (h : Matches text lastIndex ms) : ∀ m ∈ ms, lastIndex ≤ m.index := by
  induction h with
  | done _ => simp
  | step hs _ ih =>
    intro m hm
    rcases List.mem_cons.mp hm with rfl | hm
    · exact (mermaidExec_some hs).1
    · have := ih m hm
      have := mermaidExec_lt_lastIndex hs
      omega

theorem matches_exec {text : Str} {lastIndex : Nat} {ms : List RegExpMatch}
    (h : Matches text lastIndex ms) :
    ∀ m ∈ ms, ∃ li, mermaidExec text li = some m := by
  induction h with
  | done _ => simp
  | step hs _ ih =>
    intro m hm
    rcases List.mem_cons.mp hm with rfl | hm
    · exact ⟨_, hs⟩
    · exact ih m hm

theorem matches_pairwise {text : Str} {lastIndex : Nat} {ms : List RegExpMatch}
    (h : Matches text lastIndex ms) :
    ms.Pairwise (fun a b => a.lastIndex ≤ b.index) := by
  induction h with
  | done _ => simp
  | step hs hr ih =>
    rw [List.pairwise_cons]
    exact ⟨fun b hb => matches_index_ge hr b hb, ih⟩

/-- With a directory at the first staging path and a block in the document, the run
ends with the exception of `writeFileSync`. -/
theorem run_directory (render : Renderer) (text : Str) (fs : FileSystem) (m : RegExpMatch)
    (hm : mermaidExec text 0 = some m) (hdir : fs.dirs (tempFileName 0) = true) :
    run render text fs = .error (.isDirectory (tempFileName 0)) := by
  cases he : existsSync fs outputDir with
  | true =>
    have hp := processBlock_directory render text m ⟨fs, 0, 0, [], []⟩ hdir
    simp only at hp
    simp [run, he, whileExec, hm, hp]
  | false =>
    have hdir' : (fs.put outputDir (some .directory)).dirs (tempFileName 0) = true := by
      unfold FileSystem.dirs at hdir ⊢
      simp only [FileSystem.put, tempFileName_ne_outputDir 0, if_false]
      exact hdir
    have hp := processBlock_directory render text m
      ⟨fs.put outputDir (some .directory), 0, 0, [], []⟩ hdir'
    simp only at hp
    simp [run, he, mkdirSync, whileExec, hm, hp]
/-! ## The characters of a name -/

theorem toDecimal_digit (fuel n : Nat) : ∀ d ∈ toDecimal fuel n, 48 ≤ d ∧ d ≤ 57 := by
  induction fuel generalizing n with
  | zero => simp [toDecimal]
  | succ fuel ih =>
    intro d hd
    unfold toDecimal at hd
    split at hd
    · simp only [List.mem_singleton] at hd
      omega
    · rcases List.mem_append.mp hd with h | h
      · exact ih _ d h
      · simp only [List.mem_singleton] at h
        omega

theorem decimalValue_toDecimal (fuel n : Nat) (h : n < fuel) :
    decimalValue (toDecimal fuel n) = n := by
  induction fuel generalizing n with
  | zero => omega
  | succ fuel ih =>
    unfold toDecimal
    split
    · simp [decimalValue]
    · have := ih (n / 10) (by omega)
      simp only [decimalValue, List.foldl_append, List.foldl_cons, List.foldl_nil] at this ⊢
      rw [this]
      omega

theorem toDecimal_ne_nil (fuel n : Nat) : toDecimal (fuel + 1) n ≠ [] := by
  unfold toDecimal
  split <;> simp

theorem fallbackName_nameChar (k : Nat) : ∀ c ∈ fallbackName k, isNameChar c = true := by
  intro c hc
  rcases List.mem_append.mp hc with h | h
  · have : ∀ x ∈ utf16 "diagram_", isNameChar x = true := by decide
    exact this c h
  · have := toDecimal_digit _ _ c h
    simp only [isNameChar, underscore, hyphen, Bool.or_eq_true, Bool.and_eq_true,
      decide_eq_true_eq, beq_iff_eq]
    omega

theorem replaceRuns_mem (inRun : Bool) (s : Str) :
    ∀ c ∈ replaceRuns inRun s, c = underscore ∨ (c ∈ s ∧ isWhiteSpace c = false) := by
  induction s generalizing inRun with
  | nil => simp [replaceRuns]
  | cons a t ih =>
    intro c hc
    unfold replaceRuns at hc
    split at hc
    · split at hc
      · rcases ih _ c hc with h | h
        · exact .inl h
        · exact .inr ⟨List.mem_cons_of_mem _ h.1, h.2⟩
      · rcases List.mem_cons.mp hc with h | h
        · exact .inl h
        · rcases ih _ c h with h | h
          · exact .inl h
          · exact .inr ⟨List.mem_cons_of_mem _ h.1, h.2⟩
    · rename_i hws
      rcases List.mem_cons.mp hc with h | h
      · subst h
        exact .inr ⟨List.mem_cons_self _ _, by simpa using hws⟩
      · rcases ih _ c h with h | h
        · exact .inl h
        · exact .inr ⟨List.mem_cons_of_mem _ h.1, h.2⟩

theorem replaceRuns_removeOther_mem (x : Str) :
    ∀ c ∈ replaceRuns false (removeOther x), isWordChar c = true ∨ c = hyphen := by
  intro c hc
  rcases replaceRuns_mem _ _ c hc with h | ⟨h1, h2⟩
  · subst h
    exact .inl (by decide)
  · have := (List.mem_filter.mp h1).2
    simp only [h2, Bool.or_false, Bool.or_eq_true, beq_iff_eq] at this
    exact this

/-- The text the script lower-cases has code units below `128` only. -/
theorem lowerCaseArgument_ascii (x : Str) :
    ∀ c ∈ replaceRuns false (removeOther x), c < 128 := by
  intro c hc
  rcases replaceRuns_removeOther_mem x c hc with h | h
  · simp only [isWordChar, Bool.or_eq_true, Bool.and_eq_true, decide_eq_true_eq,
      beq_iff_eq] at h
    omega
  · simp only [h, hyphen]
    omega

theorem deriveName_nameChar (heading : Str) : ∀ c ∈ deriveName heading, isNameChar c = true := by
  intro c hc
  simp only [deriveName, toLowerCase, List.mem_map] at hc
  obtain ⟨b, hb, rfl⟩ := hc
  have := replaceRuns_removeOther_mem _ b hb
  simp only [isWordChar, hyphen, Bool.or_eq_true, Bool.and_eq_true, decide_eq_true_eq,
    beq_iff_eq] at this
  simp only [isNameChar, underscore, hyphen, Bool.or_eq_true, Bool.and_eq_true,
    decide_eq_true_eq, beq_iff_eq]
  split <;> omega

theorem resolveTitle_nameChar (text : Str) (index blockIndex : Nat) :
    ∀ c ∈ resolveTitle text index blockIndex, isNameChar c = true := by
  unfold resolveTitle
  simp only
  split
  · split
    · exact deriveName_nameChar _
    · exact fallbackName_nameChar _
  · exact fallbackName_nameChar _

theorem nameChar_safe (c : Nat) (h : isNameChar c = true) :
    isWhiteSpace c = false ∧ ¬ (65 ≤ c ∧ c ≤ 90) ∧ c ≠ 47 ∧ c ≠ 92 ∧ c ≠ 46 := by
  simp only [isNameChar, underscore, hyphen, Bool.or_eq_true, Bool.and_eq_true,
    decide_eq_true_eq, beq_iff_eq] at h
  refine ⟨?_, by omega, by omega, by omega, by omega⟩
  simp only [isWhiteSpace, Bool.or_eq_false_iff, Bool.and_eq_false_imp, decide_eq_true_eq,
    decide_eq_false_iff_not, beq_eq_false_iff_ne]
  omega

theorem attempts_map {β : Type} (render : Renderer) (text : Str) (f : Attempt → β)
    (g : RegExpMatch → β) (hfg : ∀ i m, f (attemptFor render text i m) = g m)
    (ms : List RegExpMatch) (k : Nat) :
    ((ms.enumFrom k).map (fun p => attemptFor render text p.1 p.2)).map f = ms.map g := by
  induction ms generalizing k with
  | nil => rfl
  | cons m ms ih => simp [List.enumFrom, hfg, ih (k + 1)]

theorem attempts_sequenceIndex (render : Renderer) (text : Str) (ms : List RegExpMatch)
    (k : Nat) :
    ((ms.enumFrom k).map (fun p => attemptFor render text p.1 p.2)).map (·.sequenceIndex)
      = List.range' k ms.length := by
  induction ms generalizing k with
  | nil => rfl
  | cons m ms ih =>
    simp only [List.enumFrom, List.map_cons, List.length_cons, List.range'_succ, ih (k + 1)]
    rfl

theorem attempt_text {text : Str} {lastIndex : Nat} {ms : List RegExpMatch}
    (h : Matches text lastIndex ms) {render : Renderer} {a : Attempt}
    (ha : a ∈ (ms.enumFrom 0).map (fun p => attemptFor render text p.1 p.2)) :
    (∃ rest, text.drop a.startOffset = openMarker ++ (a.content ++ (closeMarker ++ rest))) ∧
      ∀ j, j < a.content.length →
        ¬ closeMarker <+: text.drop (a.startOffset + openMarker.length + j) := by
  obtain ⟨i, m, hm, rfl⟩ := matches_mem_of_attempt ha
  obtain ⟨li, hli⟩ := matches_exec h m (List.getElem?_mem hm)
  obtain ⟨-, h2, -, h4, -⟩ := mermaidExec_some hli
  exact ⟨⟨_, h2⟩, h4⟩

theorem prefix_drop_of_infix {p s : Str} (h : p <:+: s) (hp : p ≠ []) :
    ∃ j, j < s.length ∧ p <+: s.drop j := by
  obtain ⟨u, v, rfl⟩ := h
  refine ⟨u.length, ?_, ?_⟩
  · have : 0 < p.length := List.length_pos.mpr hp
    simp only [List.length_append]
    omega
  · rw [List.append_assoc, List.drop_left]
    exact List.prefix_append _ _

theorem noStagingDirectory_empty : NoStagingDirectory emptyFileSystem :=
  fun _ => rfl

theorem run_of_matches {text : Str} {ms : List RegExpMatch} (h : Matches text 0 ms)
    (render : Renderer) (fs : FileSystem) (hfs : NoStagingDirectory fs) :
    ∃ final, run render text fs = .ok final ∧
      final.attempts = (ms.enumFrom 0).map (fun p => attemptFor render text p.1 p.2) := by
  obtain ⟨final, ms', hms', hrun, hatt, -⟩ := run_spec render text fs hfs
  exact ⟨final, hrun, by rw [hatt, matches_unique hms' h]⟩

/-- C2 (content fidelity).  In a file system where no directory stands at a staging
path, for every document and every block the loop yields, with start offset `s` and
content `c`, the document text from `s` on is the open marker, then `c`, then the close
marker; the document of the example has one block, whose content is `A-->B` followed by
a line feed. -/
theorem content_fidelity (render : Renderer) (text : Str) (fs : FileSystem)
    (hfs : NoStagingDirectory fs) :
    (∃ final, run render text fs = .ok final ∧
      ∀ a ∈ final.attempts, ∃ rest,
        text.drop a.startOffset = openMarker ++ (a.content ++ (closeMarker ++ rest))) ∧
    (∃ final, run render loginFlowDocument fs = .ok final ∧
      final.attempts.map (·.content) = [utf16 "A-->B\n"]) := by
  constructor
  · obtain ⟨final, ms, hms, hrun, hatt, -⟩ := run_spec render text fs hfs
    refine ⟨final, hrun, fun a ha => ?_⟩
    rw [hatt] at ha
    exact (attempt_text hms ha).1
  · have hex : Matches loginFlowDocument 0 [⟨14, utf16 "A-->B\n", 34⟩] :=
      .step (m := ⟨14, utf16 "A-->B\n", 34⟩) (by decide) (.done (by decide))
    obtain ⟨final, hrun, hatt⟩ := run_of_matches hex render fs hfs
    refine ⟨final, hrun, ?_⟩
    rw [hatt]
    rfl

/-- C2 at the document `twoDiagrams`, in the empty file system. -/
theorem content_fidelity_witness :
    NoStagingDirectory emptyFileSystem ∧
      ((∃ final, run alwaysSucceeds twoDiagrams emptyFileSystem = .ok final ∧
        ∀ a ∈ final.attempts, ∃ rest,
          twoDiagrams.drop a.startOffset
            = openMarker ++ (a.content ++ (closeMarker ++ rest))) ∧
      (∃ final, run alwaysSucceeds loginFlowDocument emptyFileSystem = .ok final ∧
        final.attempts.map (·.content) = [utf16 "A-->B\n"])) :=
  ⟨fun _ => rfl, content_fidelity alwaysSucceeds twoDiagrams emptyFileSystem (fun _ => rfl)⟩

/-- C8 (non-greedy matching).  In a file system where no directory stands at a staging
path, for every document and every block the loop yields, the close marker stands right
after the content and at no earlier place after the open marker, the content has no
three backticks in a row, and every later block starts at or after the end of the close
marker of this one. -/
theorem non_greedy (render : Renderer) (text : Str) (fs : FileSystem)
    (hfs : NoStagingDirectory fs) :
    ∃ final, run render text fs = .ok final ∧
      (∀ a ∈ final.attempts,
        closeMarker <+: text.drop (a.startOffset + openMarker.length + a.content.length) ∧
        (∀ j, j < a.content.length →
          ¬ closeMarker <+: text.drop (a.startOffset + openMarker.length + j)) ∧
        ¬ closeMarker <:+: a.content) ∧
      final.attempts.Pairwise (fun a b =>
        a.startOffset + openMarker.length + a.content.length + closeMarker.length
          ≤ b.startOffset) := by
  obtain ⟨final, ms, hms, hrun, hatt, -⟩ := run_spec render text fs hfs
  refine ⟨final, hrun, fun a ha => ?_, ?_⟩
  · rw [hatt] at ha
    obtain ⟨⟨rest, h1⟩, h2⟩ := attempt_text hms ha
    have hd : ∀ j, text.drop (a.startOffset + openMarker.length + j)
        = (a.content ++ (closeMarker ++ rest)).drop j := by
      intro j
      rw [Nat.add_assoc, ← List.drop_drop, h1, ← List.drop_drop, List.drop_left]
    refine ⟨?_, h2, ?_⟩
    · rw [hd, List.drop_left]
      exact List.prefix_append _ _
    · intro hin
      obtain ⟨j, hj, hp⟩ := prefix_drop_of_infix hin (by decide)
      apply h2 j hj
      rw [hd, List.drop_append_of_le_length (by omega)]
      exact hp.trans (List.prefix_append _ _)
  · rw [hatt]
    have hp := matches_pairwise hms
    have hl : ∀ m ∈ ms, m.lastIndex
        = m.index + openMarker.length + m.capture.length + closeMarker.length := by
      intro m hm
      obtain ⟨li, hli⟩ := matches_exec hms m hm
      exact (mermaidExec_some hli).2.2.1
    have key : (ms.map (fun m => (m.index, m.capture.length))).Pairwise (fun x y =>
        x.1 + openMarker.length + x.2 + closeMarker.length ≤ y.1) := by
      rw [List.pairwise_map]
      refine hp.imp_of_mem ?_
      intro x y hx _ hxy
      simp only
      rw [← hl x hx]
      exact hxy
    rw [← attempts_map render text (fun a => (a.startOffset, a.content.length))
      (fun m => (m.index, m.capture.length)) (fun _ _ => rfl) ms 0, List.pairwise_map] at key
    exact key

/-- C8 at the document `twoDiagrams`, in the empty file system. -/
theorem non_greedy_witness :
    NoStagingDirectory emptyFileSystem ∧
      ∃ final, run alwaysSucceeds twoDiagrams emptyFileSystem = .ok final ∧
        (∀ a ∈ final.attempts,
          closeMarker <+:
            twoDiagrams.drop (a.startOffset + openMarker.length + a.content.length) ∧
          (∀ j, j < a.content.length →
            ¬ closeMarker <+: twoDiagrams.drop (a.startOffset + openMarker.length + j)) ∧
          ¬ closeMarker <:+: a.content) ∧
        final.attempts.Pairwise (fun a b =>
          a.startOffset + openMarker.length + a.content.length + closeMarker.length
            ≤ b.startOffset) :=
  ⟨fun _ => rfl, non_greedy alwaysSucceeds twoDiagrams emptyFileSystem (fun _ => rfl)⟩
theorem console_length (render : Renderer) (text : Str) (ms : List RegExpMatch) (k : Nat) :
    ((ms.enumFrom k).map (fun p => consoleLineFor render text p.1 p.2)).length = ms.length := by
  simp

set_option maxRecDepth 100000 in
/-- C6 (isolation and final count).  In a file system where no directory stands at a
staging path, whatever the renderer answers at each invocation, the run ends normally
and makes one attempt for each match of the document, in the order of the matches and
numbered from `0`; each attempt gives the renderer the staged content of its block and
succeeds exactly when the renderer does for that invocation; each attempt writes its
line to the console, and the last line printed is the summary with the decimal count of
the attempts that succeeded (zero when there is no match).  With a renderer that fails
at its first invocation, the second block of `twoDiagrams` is still converted and the
count printed is `1`. -/
theorem isolation_and_count (render : Renderer) (text : Str) (fs : FileSystem)
    (hfs : NoStagingDirectory fs) :
    (∃ final ms, Matches text 0 ms ∧ run render text fs = .ok final ∧
      final.attempts.map (fun a => (a.startOffset, a.content))
        = ms.map (fun m => (m.index, m.capture)) ∧
      final.attempts.map (·.sequenceIndex) = List.range ms.length ∧
      (∀ a ∈ final.attempts,
        a.staged = some a.content ∧ a.outputFile = outputFileName a.title ∧
        a.succeeded =
          succeeds render a.sequenceIndex
            (command (tempFileName a.sequenceIndex) a.outputFile) a.staged) ∧
      final.diagramCount = (final.attempts.filter (·.succeeded)).length ∧
      final.console = (ms.enumFrom 0).map (fun p => consoleLineFor render text p.1 p.2) ++
        [utf16 "\nConversion complete! Generated " ++ numberToString final.diagramCount ++
          utf16 " SVG files in the 'uml-diagrams-svg' directory."] ∧
      final.console.getLast? =
        some (utf16 "\nConversion complete! Generated " ++
          numberToString final.diagramCount ++
          utf16 " SVG files in the 'uml-diagrams-svg' directory.") ∧
      decimalValue (numberToString final.diagramCount) = final.diagramCount ∧
      (ms = [] → final.diagramCount = 0)) ∧
    (run failsFirst twoDiagrams emptyFileSystem).toOption.map
        (fun s => (s.attempts.map (fun a => (a.sequenceIndex, a.content, a.succeeded)),
          s.diagramCount, s.console))
      = some ([(0, utf16 "A\n", false), (1, utf16 "B\n", true)], 1,
          [utf16 "Failed to generate uml-diagrams-svg/one.svg: boom",
            utf16 "Generated: uml-diagrams-svg/two.svg",
            utf16 "\nConversion complete! Generated 1 SVG files in the 'uml-diagrams-svg' directory."]) := by
  refine ⟨?_, by decide⟩
  obtain ⟨final, ms, hms, hrun, hatt, hcount, hcons, -⟩ := run_spec render text fs hfs
  have hsum : summaryLine final.diagramCount =
      utf16 "\nConversion complete! Generated " ++ numberToString final.diagramCount ++
        utf16 " SVG files in the 'uml-diagrams-svg' directory." := by
    have e1 : utf16 " SVG files in the '" ++ outputDir ++ utf16 "' directory."
        = utf16 " SVG files in the 'uml-diagrams-svg' directory." := by decide
    simp only [summaryLine, List.append_assoc] at e1 ⊢
    rw [e1]
  rw [hsum] at hcons
  refine ⟨final, ms, hms, hrun, ?_, ?_, ?_, hcount, hcons, ?_, ?_, ?_⟩
  · rw [hatt]
    exact attempts_map render text _ _ (fun _ _ => rfl) ms 0
  · rw [hatt, attempts_sequenceIndex, List.range_eq_range']
  · intro a ha
    rw [hatt] at ha
    obtain ⟨i, m, -, rfl⟩ := matches_mem_of_attempt ha
    exact ⟨rfl, rfl, rfl⟩
  · rw [hcons]
    simp
  · exact decimalValue_toDecimal _ _ (Nat.lt_succ_self _)
  · intro he
    rw [hcount, hatt, he]
    rfl

/-- C6 with the renderer that fails at its first invocation, at the document
`twoDiagrams`, in the empty file system. -/
theorem isolation_and_count_witness :
    NoStagingDirectory emptyFileSystem ∧
    ((∃ final ms, Matches twoDiagrams 0 ms ∧
      run failsFirst twoDiagrams emptyFileSystem = .ok final ∧
      final.attempts.map (fun a => (a.startOffset, a.content))
        = ms.map (fun m => (m.index, m.capture)) ∧
      final.attempts.map (·.sequenceIndex) = List.range ms.length ∧
      (∀ a ∈ final.attempts,
        a.staged = some a.content ∧ a.outputFile = outputFileName a.title ∧
        a.succeeded =
          succeeds failsFirst a.sequenceIndex
            (command (tempFileName a.sequenceIndex) a.outputFile) a.staged) ∧
      final.diagramCount = (final.attempts.filter (·.succeeded)).length ∧
      final.console =
        (ms.enumFrom 0).map (fun p => consoleLineFor failsFirst twoDiagrams p.1 p.2) ++
        [utf16 "\nConversion complete! Generated " ++ numberToString final.diagramCount ++
          utf16 " SVG files in the 'uml-diagrams-svg' directory."] ∧
      final.console.getLast? =
        some (utf16 "\nConversion complete! Generated " ++
          numberToString final.diagramCount ++
          utf16 " SVG files in the 'uml-diagrams-svg' directory.") ∧
      decimalValue (numberToString final.diagramCount) = final.diagramCount ∧
      (ms = [] → final.diagramCount = 0)) ∧
    (run failsFirst twoDiagrams emptyFileSystem).toOption.map
        (fun s => (s.attempts.map (fun a => (a.sequenceIndex, a.content, a.succeeded)),
          s.diagramCount, s.console))
      = some ([(0, utf16 "A\n", false), (1, utf16 "B\n", true)], 1,
          [utf16 "Failed to generate uml-diagrams-svg/one.svg: boom",
            utf16 "Generated: uml-diagrams-svg/two.svg",
            utf16 "\nConversion complete! Generated 1 SVG files in the 'uml-diagrams-svg' directory."])) :=
  ⟨fun _ => rfl, isolation_and_count failsFirst twoDiagrams emptyFileSystem (fun _ => rfl)⟩
set_option maxRecDepth 100000 in
/-- C7 (cleanup).  In a pass that starts with no directory at its staging path,
`writeFileSync` leaves the staging file `temp_diagram_<i>.mmd` with exactly the content
of the block, the renderer is started on that file system and its answer for that
content decides the pass (on success the image is at the output path and the count
grows by one, on failure neither changes), and when the pass ends nothing stands at the
staging path, on both paths, while all other paths but the output path are as before.
With a directory at the staging path the pass throws instead.  In a run that starts
with no directory at a staging path, every pass staged exactly the content of its
block, and nothing stands at the staging path of any pass when the run ends.  With a
renderer that copies the file it is given, the images of `twoDiagrams` are the contents
of its blocks; with a directory at the first staging path, the run throws. -/
theorem cleanup (render : Renderer) (text : Str) (fs : FileSystem) (m : RegExpMatch)
    (st : RunState) (hfs : NoStagingDirectory fs)
    (hst : st.fs.dirs (tempFileName st.blockIndex) = false) :
    (∃ staged st',
      writeFileSync st.fs (tempFileName st.blockIndex) m.capture = .ok staged ∧
      staged.files (tempFileName st.blockIndex) = some m.capture ∧
      processBlock render text m st = .ok st' ∧
      st'.attempts.getLast?.map (fun a => (a.content, a.staged, a.succeeded))
        = some (m.capture, some m.capture,
            succeeds render st.attempts.length
              (command (tempFileName st.blockIndex)
                (outputFileName (resolveTitle text m.index st.blockIndex)))
              (staged.files (tempFileName st.blockIndex))) ∧
      (∀ image,
        render st.attempts.length
            (command (tempFileName st.blockIndex)
              (outputFileName (resolveTitle text m.index st.blockIndex)))
            (some m.capture) = .ok image →
          st'.fs.files (outputFileName (resolveTitle text m.index st.blockIndex)) = some image ∧
            st'.diagramCount = st.diagramCount + 1) ∧
      (∀ message,
        render st.attempts.length
            (command (tempFileName st.blockIndex)
              (outputFileName (resolveTitle text m.index st.blockIndex)))
            (some m.capture) = .error message →
          st'.fs.node (outputFileName (resolveTitle text m.index st.blockIndex))
              = st.fs.node (outputFileName (resolveTitle text m.index st.blockIndex)) ∧
            st'.diagramCount = st.diagramCount) ∧
      st'.fs.node (tempFileName st.blockIndex) = none ∧
      st'.fs.files (tempFileName st.blockIndex) = none ∧
      (∀ p, p ≠ tempFileName st.blockIndex →
        p ≠ outputFileName (resolveTitle text m.index st.blockIndex) →
          st'.fs.node p = st.fs.node p)) ∧
    (∀ blocked : RunState, blocked.fs.dirs (tempFileName blocked.blockIndex) = true →
      processBlock render text m blocked
        = .error (.isDirectory (tempFileName blocked.blockIndex))) ∧
    (∃ final, run render text fs = .ok final ∧
      ∀ a ∈ final.attempts, a.staged = some a.content ∧
        final.fs.node (tempFileName a.sequenceIndex) = none ∧
        final.fs.files (tempFileName a.sequenceIndex) = none) ∧
    tempFileName 0 = utf16 "temp_diagram_0.mmd" ∧
    tempFileName 12 = utf16 "temp_diagram_12.mmd" ∧
    (run echo twoDiagrams emptyFileSystem).toOption.map
        (fun s => (s.fs.files (utf16 "uml-diagrams-svg/one.svg"),
          s.fs.files (utf16 "uml-diagrams-svg/two.svg"),
          s.fs.node (utf16 "temp_diagram_0.mmd"), s.fs.node (utf16 "temp_diagram_1.mmd")))
      = some (some (utf16 "A\n"), some (utf16 "B\n"), none, none) ∧
    (run echo twoDiagrams blockedFileSystem).toOption.map (·.diagramCount) = none := by
  refine ⟨?_, fun blocked hb => processBlock_directory render text m blocked hb, ?_,
    by decide, by decide, by decide, by decide⟩
  · have hne := tempFileName_ne_outputFileName st.blockIndex
      (resolveTitle text m.index st.blockIndex)
    have hw := writeFileSync_ok hst m.capture
    cases hr : render st.attempts.length
        (command (tempFileName st.blockIndex)
          (outputFileName (resolveTitle text m.index st.blockIndex))) (some m.capture) with
    | ok image =>
      simp [processBlock, hw, execSync, unlinkSync, FileSystem.put, FileSystem.files, hr, hne,
        hne.symm, succeeds]
      intro p h1 h2
      simp [h1, h2]
    | error message =>
      simp [processBlock, hw, execSync, unlinkSync, FileSystem.put, FileSystem.files, hr, hne,
        hne.symm, succeeds]
      intro p h1 h2
      simp [h1, h2]
  · obtain ⟨final, ms, hms, hrun, hatt, -, -, htemp, -⟩ := run_spec render text fs hfs
    refine ⟨final, hrun, fun a ha => ?_⟩
    rw [hatt] at ha
    obtain ⟨i, m, hm, rfl⟩ := matches_mem_of_attempt ha
    have hi := htemp i (List.getElem?_eq_some_iff.mp hm).1
    exact ⟨rfl, hi, files_eq_none_of_node hi⟩

/-- C7 with the renderer that fails at its first invocation: the first pass for the
document `twoDiagrams` and its run, in the empty file system. -/
theorem cleanup_witness :
    NoStagingDirectory emptyFileSystem ∧
    emptyFileSystem.dirs (tempFileName 0) = false ∧
    ((∃ staged st',
      writeFileSync emptyFileSystem (tempFileName 0) (utf16 "A\n") = .ok staged ∧
      staged.files (tempFileName 0) = some (utf16 "A\n") ∧
      processBlock failsFirst twoDiagrams ⟨7, utf16 "A\n", 23⟩ ⟨emptyFileSystem, 0, 0, [], []⟩
        = .ok st' ∧
      st'.attempts.getLast?.map (fun a => (a.content, a.staged, a.succeeded))
        = some (utf16 "A\n", some (utf16 "A\n"),
            succeeds failsFirst 0
              (command (tempFileName 0) (outputFileName (resolveTitle twoDiagrams 7 0)))
              (staged.files (tempFileName 0))) ∧
      (∀ image,
        failsFirst 0
            (command (tempFileName 0) (outputFileName (resolveTitle twoDiagrams 7 0)))
            (some (utf16 "A\n")) = .ok image →
          st'.fs.files (outputFileName (resolveTitle twoDiagrams 7 0)) = some image ∧
            st'.diagramCount = 0 + 1) ∧
      (∀ message,
        failsFirst 0
            (command (tempFileName 0) (outputFileName (resolveTitle twoDiagrams 7 0)))
            (some (utf16 "A\n")) = .error message →
          st'.fs.node (outputFileName (resolveTitle twoDiagrams 7 0))
              = emptyFileSystem.node (outputFileName (resolveTitle twoDiagrams 7 0)) ∧
            st'.diagramCount = 0) ∧
      st'.fs.node (tempFileName 0) = none ∧
      st'.fs.files (tempFileName 0) = none ∧
      (∀ p, p ≠ tempFileName 0 → p ≠ outputFileName (resolveTitle twoDiagrams 7 0) →
          st'.fs.node p = emptyFileSystem.node p)) ∧
    (∀ blocked : RunState, blocked.fs.dirs (tempFileName blocked.blockIndex) = true →
      processBlock failsFirst twoDiagrams ⟨7, utf16 "A\n", 23⟩ blocked
        = .error (.isDirectory (tempFileName blocked.blockIndex))) ∧
    (∃ final, run failsFirst twoDiagrams emptyFileSystem = .ok final ∧
      ∀ a ∈ final.attempts, a.staged = some a.content ∧
        final.fs.node (tempFileName a.sequenceIndex) = none ∧
        final.fs.files (tempFileName a.sequenceIndex) = none) ∧
    tempFileName 0 = utf16 "temp_diagram_0.mmd" ∧
    tempFileName 12 = utf16 "temp_diagram_12.mmd" ∧
    (run echo twoDiagrams emptyFileSystem).toOption.map
        (fun s => (s.fs.files (utf16 "uml-diagrams-svg/one.svg"),
          s.fs.files (utf16 "uml-diagrams-svg/two.svg"),
          s.fs.node (utf16 "temp_diagram_0.mmd"), s.fs.node (utf16 "temp_diagram_1.mmd")))
      = some (some (utf16 "A\n"), some (utf16 "B\n"), none, none) ∧
    (run echo twoDiagrams blockedFileSystem).toOption.map (·.diagramCount) = none) :=
  ⟨fun _ => rfl, rfl,
    cleanup failsFirst twoDiagrams emptyFileSystem ⟨7, utf16 "A\n", 23⟩
      ⟨emptyFileSystem, 0, 0, [], []⟩ (fun _ => rfl) rfl⟩
/-! ## Documents laid out as fenced blocks -/

theorem infix_of_prefix_drop {p s : Str} {j : Nat} (h : p <+: s.drop j) : p <:+: s :=
  List.infix_iff_prefix_suffix.mpr ⟨_, h, List.drop_suffix j s⟩

theorem openMarker_no_overlap (d : Nat) (h1 : 0 < d) (h2 : d < 11) :
    openMarker.drop d ≠ openMarker.take (11 - d) := by
  interval_cases d <;> decide

theorem gap_no_match {g : Str} (hg : ¬ openMarker <:+: g) (rest : Str) (j : Nat)
    (hj : j < g.length) : mermaidAt ((g ++ (openMarker ++ rest)).drop j) = none := by
  apply mermaidAt_none_of_no_open
  intro hp
  rw [List.drop_append_of_le_length (by omega)] at hp
  have hlen : openMarker.length = 11 := by decide
  by_cases hd : 11 ≤ (g.drop j).length
  · apply hg
    have : openMarker <+: g.drop j :=
      List.prefix_of_prefix_length_le hp (List.prefix_append _ _) (by omega)
    exact infix_of_prefix_drop this
  · have hd' : (g.drop j).length < 11 := by omega
    have hpos : 0 < (g.drop j).length := by simp only [List.length_drop]; omega
    have e := List.prefix_iff_eq_take.mp hp
    rw [hlen, List.take_append_eq_append_take, List.take_of_length_le (by omega),
      List.take_append_of_le_length (by omega)] at e
    have e2 := congrArg (List.drop (g.drop j).length) e
    rw [List.drop_left] at e2
    exact openMarker_no_overlap _ hpos hd' e2

theorem content_first_close {c : Str} (hc : ¬ closeMarker <:+: c ++ [backtick, backtick])
    (rest : Str) (j : Nat) (hj : j < c.length) :
    ¬ closeMarker <+: (c ++ (closeMarker ++ rest)).drop j := by
  intro hp
  apply hc
  have e : c ++ (closeMarker ++ rest) = (c ++ [backtick, backtick]) ++ (backtick :: rest) := by
    simp [closeMarker, utf16, backtick]
  rw [e, List.drop_append_of_le_length (by simp only [List.length_append]; omega)] at hp
  have : closeMarker <+: (c ++ [backtick, backtick]).drop j :=
    List.prefix_of_prefix_length_le hp (List.prefix_append _ _) (by
      have : closeMarker.length = 3 := by decide
      simp only [List.length_drop, List.length_append, List.length_cons, List.length_nil]
      omega)
  exact infix_of_prefix_drop this

theorem tail_no_match {tail : Str} (ht : ¬ openMarker <:+: tail) (j : Nat) :
    mermaidAt (tail.drop j) = none :=
  mermaidAt_none_of_no_open fun hp => ht (infix_of_prefix_drop hp)

theorem matches_layout (blocks : List (Str × Str)) (tail : Str) (hw : WellFormed blocks tail)
    (pre : Str) :
    ∃ ms, Matches (pre ++ layoutText blocks tail) pre.length ms ∧
      ms.map (·.index) = layoutOffsets pre.length blocks ∧
      ms.map (·.capture) = blocks.map (·.2) := by
  induction blocks generalizing pre with
  | nil =>
    refine ⟨[], .done ?_, rfl, rfl⟩
    simp only [mermaidExec, layoutText, List.drop_left]
    exact scanMermaid_of_none (tail_no_match hw.2)
  | cons b blocks ih =>
    obtain ⟨g, c⟩ := b
    have hb := hw.1 (g, c) (List.mem_cons_self _ _)
    have hw' : WellFormed blocks tail :=
      ⟨fun x hx => hw.1 x (List.mem_cons_of_mem _ hx), hw.2⟩
    obtain ⟨ms, hms, hi, hcap⟩ := ih hw' (pre ++ (g ++ (openMarker ++ (c ++ closeMarker))))
    have htext : pre ++ (g ++ (openMarker ++ (c ++ closeMarker))) ++ layoutText blocks tail
        = pre ++ layoutText ((g, c) :: blocks) tail := by
      simp [layoutText]
    have hlen : (pre ++ (g ++ (openMarker ++ (c ++ closeMarker)))).length
        = pre.length + g.length + openMarker.length + c.length + closeMarker.length := by
      simp only [List.length_append]
      omega
    rw [htext, hlen] at hms
    rw [hlen] at hi
    have hexec : mermaidExec (pre ++ layoutText ((g, c) :: blocks) tail) pre.length
        = some ⟨pre.length + g.length, c,
            pre.length + g.length + openMarker.length + c.length + closeMarker.length⟩ := by
      simp only [mermaidExec, layoutText, List.drop_left]
      apply scanMermaid_of_first
      · rw [List.drop_left]
        exact mermaidAt_of_first (content_first_close hb.2 _)
      · exact fun j hj => gap_no_match hb.1 _ j hj
    refine ⟨_ :: ms, .step hexec hms, ?_, ?_⟩
    · simp [layoutOffsets, hi]
    · simp [hcap]
theorem openMarker_apart {s : Str} {d : Nat} (h0 : openMarker <+: s)
    (hd : openMarker <+: s.drop d) (h1 : 0 < d) (h2 : d < 11) : False := by
  obtain ⟨x, rfl⟩ := h0
  have hlen : openMarker.length = 11 := by decide
  rw [List.drop_append_of_le_length (by omega)] at hd
  have e := List.prefix_iff_eq_take.mp hd
  rw [hlen, List.take_append_eq_append_take,
    List.take_of_length_le (by simp only [List.length_drop]; omega)] at e
  have e2 := congrArg (List.take (11 - d)) e
  rw [List.take_left' (by simp only [List.length_drop]; omega)] at e2
  exact openMarker_no_overlap d h1 h2 e2.symm

theorem increasing_of_matches {text : Str} {lastIndex : Nat} {ms : List RegExpMatch}
    (h : Matches text lastIndex ms) : (ms.map (·.index)).Pairwise (· < ·) := by
  rw [List.pairwise_map]
  refine (matches_pairwise h).imp_of_mem ?_
  intro a b ha _ hab
  obtain ⟨li, hli⟩ := matches_exec h a ha
  have h3 := (mermaidExec_some hli).2.2.1
  have : openMarker.length = 11 := by decide
  omega

/-- C1 (extraction count and order).  In a file system where no directory stands at a
staging path, for a document made of `N` well-formed fenced blocks with free text
around them (`N` may be zero), the loop yields exactly `N` blocks, at the offsets where the blocks start and with their contents, the start
offsets increase strictly, and the block number `k` (from zero) is processed with
`blockIndex = k`; without any block nothing is yielded. -/
theorem extraction_count (render : Renderer) (fs : FileSystem) (blocks : List (Str × Str))
    (tail : Str) (hw : WellFormed blocks tail) (hfs : NoStagingDirectory fs) :
    ∃ final, run render (layoutText blocks tail) fs = .ok final ∧
      final.attempts.length = blocks.length ∧
      final.attempts.map (·.startOffset) = layoutOffsets 0 blocks ∧
      final.attempts.map (·.content) = blocks.map (·.2) ∧
      (final.attempts.map (·.startOffset)).Pairwise (· < ·) ∧
      final.attempts.map (·.sequenceIndex) = List.range blocks.length ∧
      (blocks = [] → final.attempts = []) := by
  obtain ⟨final, ms, hms, hrun, hatt, -⟩ := run_spec render (layoutText blocks tail) fs hfs
  obtain ⟨ms', hms', hi, hc⟩ := matches_layout blocks tail hw []
  simp only [List.nil_append, List.length_nil] at hms' hi
  have hu := matches_unique hms hms'
  subst hu
  have hlen : ms.length = blocks.length := by
    simpa using congrArg List.length hc
  have hstart : final.attempts.map (·.startOffset) = ms.map (·.index) := by
    rw [hatt]
    exact attempts_map render _ _ _ (fun _ _ => rfl) ms 0
  have hcontent : final.attempts.map (·.content) = ms.map (·.capture) := by
    rw [hatt]
    exact attempts_map render _ _ _ (fun _ _ => rfl) ms 0
  refine ⟨final, hrun, ?_, ?_, ?_, ?_, ?_, ?_⟩
  · rw [hatt]
    simpa using hlen
  · rw [hstart, hi]
  · rw [hcontent, hc]
  · rw [hstart]
    exact increasing_of_matches hms
  · rw [hatt, attempts_sequenceIndex, List.range_eq_range', hlen]
  · intro he
    subst he
    have : ms = [] := by simpa using hlen
    rw [hatt, this]
    rfl

/-- C1 at a document with two blocks between free text. -/
theorem extraction_count_witness :
    WellFormed twoBlocks twoBlocksTail ∧ NoStagingDirectory emptyFileSystem ∧
      ∃ final, run alwaysSucceeds (layoutText twoBlocks twoBlocksTail) emptyFileSystem
          = .ok final ∧
        final.attempts.length = twoBlocks.length ∧
        final.attempts.map (·.startOffset) = layoutOffsets 0 twoBlocks ∧
        final.attempts.map (·.content) = twoBlocks.map (·.2) ∧
        (final.attempts.map (·.startOffset)).Pairwise (· < ·) ∧
        final.attempts.map (·.sequenceIndex) = List.range twoBlocks.length ∧
        (twoBlocks = [] → final.attempts = []) :=
  ⟨by decide, fun _ => rfl,
    extraction_count alwaysSucceeds emptyFileSystem twoBlocks twoBlocksTail (by decide)
      (fun _ => rfl)⟩

/-- C9 as stated fails: in `unclosedDocument` the open marker at offset `0` has no close
marker before the open marker of the later block at offset `13`, which is well formed,
and yet the loop yields a block that starts at offset `0`, and only that one. -/
theorem unclosed_fence_counterexample :
    openMarker <+: unclosedDocument.drop 0 ∧
      (∀ j, j < 13 → 11 ≤ j → ¬ closeMarker <+: unclosedDocument.drop j) ∧
      unclosedDocument.drop 13 = openMarker ++ (utf16 "B\n" ++ (closeMarker ++ utf16 "\n")) ∧
      (attemptsOf (run alwaysSucceeds unclosedDocument emptyFileSystem)).map
          (List.map fun a => (a.startOffset, a.content))
        = some [(0, utf16 "A\n")] := by
  decide

/-- C9, amended.  In a file system where no directory stands at a staging path, when no
three backticks in a row follow an open marker that stands at offset `p`, the run ends
normally and every block the loop yields starts before `p` and
has its close marker at or before `p`: the open marker at `p` yields no block and no
block starts at or beyond it. -/
theorem unclosed_fence (render : Renderer) (text : Str) (fs : FileSystem) (p : Nat)
    (hfs : NoStagingDirectory fs) (hopen : openMarker <+: text.drop p)
    (hno : ∀ j, p + openMarker.length ≤ j → ¬ closeMarker <+: text.drop j) :
    ∃ final, run render text fs = .ok final ∧
      ∀ a ∈ final.attempts,
        a.startOffset < p ∧ a.startOffset + openMarker.length + a.content.length ≤ p := by
  obtain ⟨final, ms, hms, hrun, hatt, -⟩ := run_spec render text fs hfs
  refine ⟨final, hrun, fun a ha => ?_⟩
  rw [hatt] at ha
  obtain ⟨⟨rest, h1⟩, h2⟩ := attempt_text hms ha
  have hlen : openMarker.length = 11 := by decide
  have hd : ∀ j, text.drop (a.startOffset + openMarker.length + j)
      = (a.content ++ (closeMarker ++ rest)).drop j := by
    intro j
    rw [Nat.add_assoc, ← List.drop_drop, h1, ← List.drop_drop, List.drop_left]
  have hclose : closeMarker <+: text.drop (a.startOffset + openMarker.length + a.content.length) := by
    rw [hd, List.drop_left]
    exact List.prefix_append _ _
  have hlt : a.startOffset < p := by
    by_contra hge
    exact hno _ (by omega) hclose
  have hcp : closeMarker <+: text.drop p :=
    List.IsPrefix.trans (by decide) hopen
  have hfar : a.startOffset + openMarker.length ≤ p := by
    by_contra hnear
    have hopen' : openMarker <+: (text.drop a.startOffset).drop (p - a.startOffset) := by
      rw [List.drop_drop]
      have : a.startOffset + (p - a.startOffset) = p := by omega
      rw [this]
      exact hopen
    exact openMarker_apart (h1 ▸ List.prefix_append _ _) hopen' (by omega) (by omega)
  refine ⟨hlt, ?_⟩
  by_contra hbig
  apply h2 (p - (a.startOffset + openMarker.length)) (by omega)
  have : a.startOffset + openMarker.length + (p - (a.startOffset + openMarker.length)) = p := by
    omega
  rw [this]
  exact hcp

/-- C9, amended, at a document whose last open marker, at offset `22`, is followed by
no backticks. -/
theorem unclosed_fence_witness :
    NoStagingDirectory emptyFileSystem ∧ openMarker <+: openEndedDocument.drop 22 ∧
      (∀ j, 22 + openMarker.length ≤ j → ¬ closeMarker <+: openEndedDocument.drop j) ∧
      ∃ final, run alwaysFails openEndedDocument emptyFileSystem = .ok final ∧
        ∀ a ∈ final.attempts,
          a.startOffset < 22 ∧ a.startOffset + openMarker.length + a.content.length ≤ 22 :=
  have h : ∀ j, 22 + openMarker.length ≤ j → ¬ closeMarker <+: openEndedDocument.drop j := by
    intro j hj hp
    have hl : openEndedDocument.length = 35 := by decide
    have h11 : openMarker.length = 11 := by decide
    by_cases hjl : j < 35
    · have hfin : ∀ i, i < 35 → 33 ≤ i → ¬ closeMarker <+: openEndedDocument.drop i := by
        decide
      exact hfin j hjl (by omega) hp
    · rw [List.drop_of_length_le (by omega)] at hp
      exact absurd hp (by decide)
  ⟨fun _ => rfl, by decide, h,
    unclosed_fence alwaysFails openEndedDocument emptyFileSystem 22 (fun _ => rfl) (by decide) h⟩
/-- C5 (names safe for the file system).  In a file system where no directory stands at
a staging path, for every document and every block the loop yields, each code unit of
the title is a letter `a` to `z`, a digit, an underscore or a hyphen; it is no white
space, no upper-case letter, no slash, no backslash and no dot, whether the title comes
from a heading or from the position of the block. -/
theorem safe_name (render : Renderer) (text : Str) (fs : FileSystem)
    (hfs : NoStagingDirectory fs) :
    ∃ final, run render text fs = .ok final ∧
      ∀ a ∈ final.attempts, ∀ c ∈ a.title,
        isNameChar c = true ∧ isWhiteSpace c = false ∧ ¬ (65 ≤ c ∧ c ≤ 90) ∧
          c ≠ 47 ∧ c ≠ 92 ∧ c ≠ 46 := by
  obtain ⟨final, ms, hms, hrun, hatt, -⟩ := run_spec render text fs hfs
  refine ⟨final, hrun, fun a ha c hc => ?_⟩
  rw [hatt] at ha
  obtain ⟨i, m, -, rfl⟩ := matches_mem_of_attempt ha
  have h := resolveTitle_nameChar text m.index i c hc
  exact ⟨h, nameChar_safe c h⟩

/-- C5 at a document whose heading holds upper-case letters, a tab, a carriage return,
punctuation and a letter outside ASCII, in the empty file system. -/
theorem safe_name_witness :
    NoStagingDirectory emptyFileSystem ∧
      ∃ final, run alwaysSucceeds mixedHeadingDocument emptyFileSystem = .ok final ∧
        ∀ a ∈ final.attempts, ∀ c ∈ a.title,
          isNameChar c = true ∧ isWhiteSpace c = false ∧ ¬ (65 ≤ c ∧ c ≤ 90) ∧
            c ≠ 47 ∧ c ≠ 92 ∧ c ≠ 46 :=
  ⟨fun _ => rfl, safe_name alwaysSucceeds mixedHeadingDocument emptyFileSystem (fun _ => rfl)⟩
/-! ## The matches of the heading pattern, line by line -/

theorem splitLines_line {l : Str} (hl : lineFeed ∉ l) : splitLines l = [l] := by
  induction l with
  | nil => rfl
  | cons c t ih =>
    have hc : c ≠ lineFeed := fun e => hl (by simp [e])
    have ht : lineFeed ∉ t := fun e => hl (List.mem_cons_of_mem _ e)
    simp [splitLines, hc, ih ht]

theorem splitLines_append {l : Str} (hl : lineFeed ∉ l) (r : Str) :
    splitLines (l ++ lineFeed :: r) = l :: splitLines r := by
  induction l with
  | nil => simp [splitLines]
  | cons c t ih =>
    have hc : c ≠ lineFeed := fun e => hl (by simp [e])
    have ht : lineFeed ∉ t := fun e => hl (List.mem_cons_of_mem _ e)
    simp [splitLines, hc, ih ht]

theorem exists_line (s : Str) :
    ∃ l rest, s = l ++ rest ∧ lineFeed ∉ l ∧ (rest = [] ∨ ∃ r, rest = lineFeed :: r) := by
  induction s with
  | nil => exact ⟨[], [], rfl, by simp, .inl rfl⟩
  | cons c t ih =>
    by_cases hc : c = lineFeed
    · exact ⟨[], c :: t, rfl, by simp, .inr ⟨t, by rw [hc]⟩⟩
    · obtain ⟨l, rest, e, hl, hr⟩ := ih
      refine ⟨c :: l, rest, by rw [e]; rfl, ?_, hr⟩
      intro hmem
      rcases List.mem_cons.mp hmem with h | h
      · exact hc h.symm
      · exact hl h

theorem takeWhile_line {b : Str} (hb : lineFeed ∉ b) {rest : Str}
    (hr : rest = [] ∨ ∃ r, rest = lineFeed :: r) :
    (b ++ rest).takeWhile (· != lineFeed) = b := by
  induction b with
  | nil =>
    rcases hr with rfl | ⟨r, rfl⟩
    · rfl
    · simp [List.takeWhile]
  | cons c t ih =>
    have hc : c ≠ lineFeed := fun e => hb (by simp [e])
    have ht : lineFeed ∉ t := fun e => hb (List.mem_cons_of_mem _ e)
    have hcb : (c != lineFeed) = true := by simpa using hc
    simp [List.takeWhile, hcb, ih ht]

theorem headingAt_line {l : Str} (hl : lineFeed ∉ l) {rest : Str}
    (hr : rest = [] ∨ ∃ r, rest = lineFeed :: r) :
    headingAt (l ++ rest) =
      if headingPrefix.isPrefixOf l && decide (headingPrefix.length < l.length) then some l
      else none := by
  have h3 : headingPrefix.length = 3 := by decide
  by_cases hp : headingPrefix <+: l
  · obtain ⟨b, rfl⟩ := hp
    have hb : lineFeed ∉ b := fun e => hl (List.mem_append_right _ e)
    have e1 : headingPrefix.isPrefixOf (headingPrefix ++ b ++ rest) = true := by
      rw [List.isPrefixOf_iff_prefix, List.append_assoc]
      exact List.prefix_append _ _
    have e2 : headingPrefix.isPrefixOf (headingPrefix ++ b) = true := by
      rw [List.isPrefixOf_iff_prefix]
      exact List.prefix_append _ _
    simp only [headingAt, e1, e2, if_true, List.append_assoc, List.drop_left,
      takeWhile_line hb hr, Bool.true_and, List.length_append]
    cases b with
    | nil => simp
    | cons c t => simp
  · have e2 : headingPrefix.isPrefixOf l = false := by
      rw [← Bool.not_eq_true, List.isPrefixOf_iff_prefix]
      exact hp
    have e1 : headingPrefix.isPrefixOf (l ++ rest) = false := by
      rw [← Bool.not_eq_true, List.isPrefixOf_iff_prefix]
      intro hpre
      by_cases hlen : 3 ≤ l.length
      · exact hp (List.prefix_of_prefix_length_le hpre (List.prefix_append _ _) (by omega))
      · rcases hr with rfl | ⟨r, rfl⟩
        · exact hp (by simpa using hpre)
        · have hsub : l ++ [lineFeed] <+: headingPrefix := by
            have hfull : l ++ [lineFeed] <+: l ++ lineFeed :: r := ⟨r, by simp⟩
            refine List.prefix_of_prefix_length_le hfull hpre ?_
            simp only [List.length_append, List.length_cons, List.length_nil]
            omega
          have hmem : lineFeed ∈ headingPrefix :=
            hsub.subset (by simp)
          exact absurd hmem (by decide)
    simp [headingAt, e1, e2]

theorem scanHeading_line {l : Str} (hl : lineFeed ∉ l) {rest : Str}
    (hr : rest = [] ∨ ∃ r, rest = lineFeed :: r) :
    scanHeading (l ++ rest) =
      match lineHeading l with
      | some h => some (h, rest)
      | none => scanHeading rest := by
  induction l with
  | nil => simp [lineHeading]
  | cons c t ih =>
    have ht : lineFeed ∉ t := fun e => hl (List.mem_cons_of_mem _ e)
    have hat := headingAt_line hl hr
    rw [List.cons_append] at hat ⊢
    cases hcond : (headingPrefix.isPrefixOf (c :: t) &&
        decide (headingPrefix.length < (c :: t).length)) with
    | true =>
      rw [hcond] at hat
      simp only [if_true] at hat
      simp only [scanHeading, lineHeading, hat, hcond, if_true]
      rw [← List.cons_append, List.drop_left]
    | false =>
      rw [hcond] at hat
      simp only [Bool.false_eq_true, if_false] at hat
      simp only [scanHeading, lineHeading, hat, hcond, Bool.false_eq_true, if_false]
      exact ih ht

theorem scanHeading_lineFeed (r : Str) : scanHeading (lineFeed :: r) = scanHeading r := by
  have : headingAt (lineFeed :: r) = none := by
    simp [headingAt, headingPrefix, utf16, lineFeed]
  simp [scanHeading, this]

theorem headingMatches_lineFeed (fuel : Nat) (r : Str) :
    headingMatches (fuel + 1) (lineFeed :: r) = headingMatches (fuel + 1) r := by
  simp [headingMatches, scanHeading_lineFeed]

theorem headingMatches_eq (s : Str) : ∀ fuel, s.length < fuel →
    headingMatches fuel s = headingTexts s := by
  generalize hn : s.length = n
  induction n using Nat.strong_induction_on generalizing s with
  | _ n ih =>
    subst hn
    intro fuel hf
    obtain ⟨l, rest, rfl, hl, hr⟩ := exists_line s
    cases fuel with
    | zero => omega
    | succ fuel =>
      rcases hr with rfl | ⟨r, rfl⟩
      · simp only [List.append_nil, headingTexts, splitLines_line hl, headingMatches]
        have := @scanHeading_line l hl [] (.inl rfl)
        rw [List.append_nil] at this
        rw [this]
        cases hlh : lineHeading l with
        | none => simp [scanHeading, hlh]
        | some h => cases fuel <;> simp [headingMatches, scanHeading, hlh]
      · have hrec : ∀ f, r.length < f → headingMatches f r = headingTexts r :=
          ih r.length (by simp only [List.length_append, List.length_cons]; omega) r rfl
        simp only [List.length_append, List.length_cons] at hf
        have hsc := @scanHeading_line l hl (lineFeed :: r) (.inr ⟨r, rfl⟩)
        simp only [headingTexts, splitLines_append hl, List.filterMap_cons]
        cases hlh : lineHeading l with
        | none =>
          rw [hlh] at hsc
          simp only
          have : headingMatches (fuel + 1) (l ++ lineFeed :: r)
              = headingMatches (fuel + 1) r := by
            simp only [headingMatches, hsc, scanHeading_lineFeed]
          rw [this]
          exact hrec _ (by omega)
        | some h =>
          rw [hlh] at hsc
          simp only [headingMatches, hsc]
          cases fuel with
          | zero => omega
          | succ fuel =>
            rw [headingMatches_lineFeed]
            congr 1
            exact hrec _ (by omega)
/-! ## The title, from the heading texts of the lines -/

theorem resolveTitle_eq (text : Str) (index blockIndex : Nat) :
    resolveTitle text index blockIndex =
      match (headingTexts (text.take index)).getLast? with
      | some h => deriveName h
      | none => fallbackName blockIndex := by
  unfold resolveTitle stringMatch
  simp only
  rw [headingMatches_eq _ _ (Nat.lt_succ_self _)]
  cases hh : headingTexts (text.take index) with
  | nil => simp
  | cons x xs =>
    have hne : (x :: xs) ≠ [] := by simp
    simp only [List.isEmpty_cons, Bool.false_eq_true, if_false, List.length_cons, gt_iff_lt,
      Nat.zero_lt_succ, if_true, List.getLastD_eq_getLast?]
    rw [List.getLast?_eq_getLast _ hne]
    rfl

theorem lineHeading_some {l h : Str} (hl : lineHeading l = some h) :
    ∃ body, h = headingPrefix ++ body ∧ body ≠ [] := by
  induction l with
  | nil => simp [lineHeading] at hl
  | cons c t ih =>
    unfold lineHeading at hl
    split at hl
    · rename_i hcond
      simp only [Option.some.injEq] at hl
      subst hl
      simp only [Bool.and_eq_true, decide_eq_true_eq, List.isPrefixOf_iff_prefix] at hcond
      obtain ⟨⟨body, hb⟩, hlen⟩ := hcond
      refine ⟨body, hb.symm, ?_⟩
      rintro rfl
      rw [← hb] at hlen
      simp at hlen
    · exact ih hl

theorem headingTexts_mem {s h : Str} (hh : h ∈ headingTexts s) :
    ∃ body, h = headingPrefix ++ body ∧ body ≠ [] := by
  simp only [headingTexts, List.mem_filterMap] at hh
  obtain ⟨l, -, hl⟩ := hh
  exact lineHeading_some hl

theorem lineHeading_of_headingLine {l : Str} (h : isHeadingLine l = true) :
    lineHeading l = some l := by
  cases l with
  | nil => simp [isHeadingLine] at h
  | cons c t =>
    simp only [isHeadingLine] at h
    unfold lineHeading
    rw [if_pos h]

theorem replaceFirst_prefix (body : Str) :
    replaceFirst headingPrefix [] (headingPrefix ++ body) = body := by
  have e : headingPrefix = [35, 35, 32] := by decide
  rw [e]
  simp [replaceFirst]

theorem replaceRuns_eq_nil (s : Str) : replaceRuns false s = [] ↔ s = [] := by
  cases s with
  | nil => simp [replaceRuns]
  | cons c t =>
    unfold replaceRuns
    split <;> simp

theorem deriveName_eq_nil (body : Str) :
    deriveName (headingPrefix ++ body) = [] ↔
      ∀ c ∈ body, isWordChar c = false ∧ isWhiteSpace c = false ∧ c ≠ hyphen := by
  simp only [deriveName, replaceFirst_prefix, toLowerCase, List.map_eq_nil_iff,
    replaceRuns_eq_nil, removeOther, List.filter_eq_nil_iff, Bool.or_eq_true, beq_iff_eq,
    not_or, Bool.not_eq_true]
  constructor
  · intro h c hc
    exact ⟨(h c hc).1.1, (h c hc).1.2, (h c hc).2⟩
  · intro h c hc
    exact ⟨⟨(h c hc).1, (h c hc).2.1⟩, (h c hc).2.2⟩

theorem fallbackName_ne_nil (k : Nat) : fallbackName k ≠ [] := by
  have e : utf16 "diagram_" = 100 :: utf16 "iagram_" := by decide
  simp [fallbackName, e]

theorem attempts_getElem? {render : Renderer} {text : Str} {ms : List RegExpMatch} {i : Nat}
    {a : Attempt}
    (h : ((ms.enumFrom 0).map (fun p => attemptFor render text p.1 p.2))[i]? = some a) :
    ∃ m, ms[i]? = some m ∧ a = attemptFor render text i m := by
  rw [List.getElem?_map, List.getElem?_enumFrom] at h
  cases hm : ms[i]? with
  | none => simp [hm] at h
  | some m =>
    simp only [hm, Option.map_some', Option.some.injEq, Nat.zero_add] at h
    exact ⟨m, rfl, h.symm⟩

/-! ## The title the script computes -/

/-- The title of every block the loop yields comes from the heading texts of the lines
before the block: the derivation of the last one, or the positional name when there is
none.  A second-level heading line is its own heading text. -/
theorem title_of_attempt (render : Renderer) (text : Str) (fs : FileSystem)
    (hfs : NoStagingDirectory fs) :
    (∃ final, run render text fs = .ok final ∧
      ∀ i a, final.attempts[i]? = some a →
        a.sequenceIndex = i ∧
        a.title =
          match (headingTexts (text.take a.startOffset)).getLast? with
          | some h => deriveName h
          | none => utf16 "diagram_" ++ numberToString (i + 1)) ∧
    (∀ l, isHeadingLine l = true → lineHeading l = some l) ∧
    (∀ n, decimalValue (numberToString n) = n ∧ numberToString n ≠ [] ∧
      ∀ d ∈ numberToString n, 48 ≤ d ∧ d ≤ 57) := by
  refine ⟨?_, fun l hl => lineHeading_of_headingLine hl,
    fun n => ⟨decimalValue_toDecimal _ _ (Nat.lt_succ_self n), toDecimal_ne_nil _ _,
      toDecimal_digit _ _⟩⟩
  obtain ⟨final, ms, hms, hrun, hatt, -⟩ := run_spec render text fs hfs
  refine ⟨final, hrun, fun i a ha => ?_⟩
  rw [hatt] at ha
  obtain ⟨m, -, rfl⟩ := attempts_getElem? ha
  refine ⟨rfl, ?_⟩
  simp only [attemptFor]
  rw [resolveTitle_eq]
  rfl

/-- The title of a block the loop yields is empty exactly when the last heading text
before the block has no word character, no white space and no hyphen after its
prefix; the positional name is never empty. -/
theorem title_empty_iff (render : Renderer) (text : Str) (fs : FileSystem)
    (hfs : NoStagingDirectory fs) :
    ∃ final, run render text fs = .ok final ∧
      ∀ a ∈ final.attempts,
        (a.title = [] ↔
          ∃ body, (headingTexts (text.take a.startOffset)).getLast?
              = some (headingPrefix ++ body) ∧
            ∀ c ∈ body, isWordChar c = false ∧ isWhiteSpace c = false ∧ c ≠ hyphen) ∧
        (a.title = [] →
          a.outputFile = utf16 "uml-diagrams-svg/.svg" ∧
            a.title ≠ fallbackName a.sequenceIndex) ∧
        (headingTexts (text.take a.startOffset) = [] →
          a.title = fallbackName a.sequenceIndex ∧ a.title ≠ []) := by
  obtain ⟨final, ms, hms, hrun, hatt, -⟩ := run_spec render text fs hfs
  refine ⟨final, hrun, fun a ha => ?_⟩
  rw [hatt] at ha
  obtain ⟨i, m, -, rfl⟩ := matches_mem_of_attempt ha
  simp only [attemptFor]
  rw [resolveTitle_eq]
  refine ⟨?_, ?_, ?_⟩
  · cases hh : (headingTexts (text.take m.index)).getLast? with
    | none =>
      constructor
      · intro h
        exact absurd h (fallbackName_ne_nil i)
      · rintro ⟨b, hb, -⟩
        cases hb
    | some h =>
      obtain ⟨body, rfl, -⟩ := headingTexts_mem (List.mem_of_getLast?_eq_some hh)
      simp only [Option.some.injEq, List.append_cancel_left_eq]
      rw [deriveName_eq_nil]
      constructor
      · intro hb
        exact ⟨body, rfl, hb⟩
      · rintro ⟨b, rfl, hb⟩
        exact hb
  · intro he
    rw [he]
    exact ⟨by decide, (fallbackName_ne_nil i).symm⟩
  · intro he
    rw [he]
    exact ⟨rfl, fallbackName_ne_nil i⟩

/-! ## Where the title is not that of the nearest second-level heading -/

/-- C3 (code bug).  The script says that it looks backwards for a `##` heading, and its
pattern is not tied to the start of a line.  Before the block of `subheadingDocument`,
at offset `15`, the last second-level heading line is `## Top`, whose derivation is
`top`; the script finds `## Sub` inside the third-level heading line that follows and
gives the block the title `sub`. -/
theorem nearest_heading_failing_input :
    (headingLines (subheadingDocument.take 15)).getLast? = some (utf16 "## Top") ∧
      deriveName (utf16 "## Top") = utf16 "top" ∧
      stringMatch (subheadingDocument.take 15) = some [utf16 "## Top", utf16 "## Sub"] ∧
      (attemptsOf (run alwaysSucceeds subheadingDocument emptyFileSystem)).map
          (List.map fun a => (a.startOffset, a.title, a.outputFile))
        = some [(15, utf16 "sub", utf16 "uml-diagrams-svg/sub.svg")] := by
  decide

/-- C4 (code bug).  Before the block of `thirdLevelDocument`, at offset `10`, there is no
second-level heading line, so that the name of the block is `diagram_1`; the script
finds `## Notes` inside the third-level heading line and gives the block the title
`notes`. -/
theorem fallback_name_failing_input :
    headingLines (thirdLevelDocument.take 10) = [] ∧
      fallbackName 0 = utf16 "diagram_1" ∧
      stringMatch (thirdLevelDocument.take 10) = some [utf16 "## Notes"] ∧
      (attemptsOf (run alwaysSucceeds thirdLevelDocument emptyFileSystem)).map
          (List.map fun a => (a.startOffset, a.sequenceIndex, a.title, a.outputFile))
        = some [(10, 0, utf16 "notes", utf16 "uml-diagrams-svg/notes.svg")] := by
  decide

/-- C10 (code bug).  Before the block of `inlinePrefixDocument`, at offset `13`, there is
no heading line, so that the name of the block is `diagram_1`, which is not empty; the
script finds `## !!!` inside the line of plain text and gives the block the empty
title and the output path `uml-diagrams-svg/.svg`. -/
theorem empty_name_failing_input :
    headingLines (inlinePrefixDocument.take 13) = [] ∧
      fallbackName 0 = utf16 "diagram_1" ∧
      stringMatch (inlinePrefixDocument.take 13) = some [utf16 "## !!!"] ∧
      (attemptsOf (run alwaysSucceeds inlinePrefixDocument emptyFileSystem)).map
          (List.map fun a => (a.startOffset, a.sequenceIndex, a.title, a.outputFile))
        = some [(13, 0, [], utf16 "uml-diagrams-svg/.svg")] := by
  decide
end UmlToSvg
